import Mathlib

/-!
Verification of the i18ncpp translation library (src/src/i18ncpp.cpp,
src/include/i18ncpp.h) against its natural-language specification.

The C++ code is shallowly embedded: `nlohmann::json` values become the
`Json` inductive below (with JSON numbers modelled as integers, since no
claim exercises non-integer JSON number payloads), `std::string` becomes
`String`, the mutable `I18N` object becomes the explicit record
`I18NState`, and C++ exceptions (the `json::type_error` thrown by
`get<std::string>()` on a non-string value) become the `Except` monad.
`double` arithmetic in the number formatter is modelled exactly over `ℚ`.
Recursive scanners are written with an explicit fuel argument (initialised
to the input length, which every step strictly decreases) so that all
definitions compute by kernel reduction.
-/

namespace I18ncpp

/-- The dynamically typed tree value model of `nlohmann::json`.
Object fields are kept in the map's iteration order (nlohmann's default
object is `std::map`, i.e. keys sorted lexicographically); concrete inputs
below are written already sorted.  Numbers are modelled as integers. -/
inductive Json where
  | null : Json
  | bool (b : Bool) : Json
  | num (n : Int) : Json
  | str (s : String) : Json
  | arr (xs : List Json) : Json
  | obj (fields : List (String × Json)) : Json

/-- `json::find` / `operator[]` read on an object: first field with the key. -/
def alistGet (m : List (String × Json)) (k : String) : Option Json :=
  (m.find? (fun p => p.1 == k)).map Prod.snd

/-- `params.contains(k)`: false on non-objects, key membership on objects. -/
def jContains (params : Json) (k : String) : Bool :=
  match params with
  | .obj fields => fields.any (fun p => p.1 == k)
  | _ => false

/-- `params[k]` guarded by `contains`: the value when `params` is an object
holding the key. -/
def jGet (params : Json) (k : String) : Option Json :=
  match params with
  | .obj fields => alistGet fields k
  | _ => none

/-- `value.get<std::string>()`: the string payload, or a thrown
`json::type_error` for every other value kind. -/
def getStr : Json → Except String String
  | .str s => .ok s
  | _ => .error "type_error"

/-- `is_object()`. -/
def Json.isObj : Json → Bool
  | .obj _ => true
  | _ => false

/-- `is_string()`. -/
def Json.isStr : Json → Bool
  | .str _ => true
  | _ => false

/-- Iteration order of `params.begin()..params.end()` used by
`handleVariant`: object values in field order, array elements, nothing for
`null`, the value itself for the remaining primitives. -/
def jIterValues : Json → List Json
  | .obj fields => fields.map Prod.snd
  | .arr xs => xs
  | .null => []
  | v => [v]

/-! ### Decimal rendering of integers (`std::to_string`)

`std::to_string` for integral arguments; written with fuel so it reduces in
the kernel. -/

/-- The decimal digit character for `n % 10`. -/
def digitChar (n : Nat) : Char :=
  match n with
  | 0 => '0' | 1 => '1' | 2 => '2' | 3 => '3' | 4 => '4'
  | 5 => '5' | 6 => '6' | 7 => '7' | 8 => '8' | _ => '9'

/-- Digit accumulator for `natToString`; `fuel ≥ 1 + log10 n` suffices. -/
def natToStringAux : Nat → Nat → List Char → List Char
  | 0, _, acc => acc
  | fuel + 1, n, acc =>
    if n < 10 then digitChar n :: acc
    else natToStringAux fuel (n / 10) (digitChar (n % 10) :: acc)

/-- Decimal rendering of a natural number, as `std::to_string`. -/
def natToString (n : Nat) : String := String.mk (natToStringAux (n + 1) n [])

/-- `std::to_string` on a (signed) integer. -/
def intToString (i : Int) : String :=
  if i < 0 then "-" ++ natToString i.natAbs else natToString i.natAbs

/-! ### Key lookup (`dotSplit`, `getTranslationData`) -/

/-- Body of `I18N::dotSplit`: segments between `.` separators; interior
empty segments are kept, but the final segment is pushed only when
non-empty (the C++ loop guards the last push with `start < str.size()`). -/
def dotSplitAux : List Char → List Char → List String
  | [], current => if current.isEmpty then [] else [String.mk current]
  | c :: rest, current =>
    if c = '.' then String.mk current :: dotSplitAux rest []
    else dotSplitAux rest (current ++ [c])

/-- `I18N::dotSplit`. -/
def dotSplit (s : String) : List String := dotSplitAux s.data []

/-- The mutable state of an `I18N` object, restricted to the fields the
claims touch.  `localesData` is the `unordered_map<string, json>`; the
format-configuration fields (`formatConfigs`, `defaultConfig`) only affect
the formatting engine, which is embedded separately below with its config
passed explicitly. -/
structure I18NState where
  locales : List String
  fallbackLocale : String
  localesData : List (String × Json)

/-- Walk of the dotted path inside `getTranslationData`: descend
object-by-object, failing when a segment is absent or the node is not an
object. -/
def walkPath : Json → List String → Option Json
  | node, [] => some node
  | node, p :: ps =>
    match node with
    | .obj fields =>
      match alistGet fields p with
      | some next => walkPath next ps
      | none => none
    | _ => none

/-- `I18N::getTranslationData`. -/
def getTranslationData (st : I18NState) (key : String) (locale : String) :
    Option Json :=
  if locale = "" then none
  else
    match alistGet st.localesData locale with
    | none => none
    | some tree => walkPath tree (dotSplit key)

/-! ### Locale fallback resolver -/

/-- `I18N::getLocaleRoot`: the part of the identifier before the first
hyphen. -/
def getLocaleRoot (locale : String) : String :=
  String.mk (locale.data.takeWhile (fun c => c ≠ '-'))

/-- Loop body of `I18N::getLocaleAncestry`: push the accumulated prefix at
every hyphen, push the whole string at the end. -/
def ancestryAux : List Char → List Char → List (List Char) → List (List Char)
  | [], current, res => res ++ [current]
  | c :: cs, current, res =>
    ancestryAux cs (current ++ [c]) (if c = '-' then res ++ [current] else res)

/-- `I18N::getLocaleAncestry`: hyphen-delimited prefixes, most specific
first (the C++ reverses the built list). -/
def getLocaleAncestry (locale : String) : List String :=
  ((ancestryAux locale.data [] []).map String.mk).reverse

/-- The `seen`-guarded push inside `I18N::getFallbacks` (membership in the
result list is exactly the `seen` map). -/
def dedupFold (acc : List String) (xs : List String) : List String :=
  xs.foldl (fun res a => if a ∈ res then res else res ++ [a]) acc

/-- The main loop of `I18N::getFallbacks`: concatenated de-duplicated
ancestries of the requested locales. -/
def fallbacksBase (locales : List String) : List String :=
  locales.foldl (fun res l => dedupFold res (getLocaleAncestry l)) []

/-- `I18N::getFallbacks`: the ancestry loop, then the configured fallback
locale when non-empty and not already present. -/
def getFallbacks (fallbackLocale : String) (locales : List String) :
    List String :=
  if fallbackLocale ≠ "" ∧ fallbackLocale ∉ fallbacksBase locales then
    fallbacksBase locales ++ [fallbackLocale]
  else fallbacksBase locales

/-- Modelled from the spec's words (§4.1), for comparison with
`getFallbacks`: concatenate the ancestries of all requested locales in
order, skipping any value already emitted, then append the fallback locale
when non-empty and not already present. -/
def specFallbacksBase (locales : List String) : List String :=
  locales.foldl
    (fun acc l => acc ++ (getLocaleAncestry l).filter (fun a => a ∉ acc)) []

/-- Modelled from the spec's words (§4.1): the full fallback-resolution
contract. -/
def specFallbacks (fallbackLocale : String) (locales : List String) :
    List String :=
  if fallbackLocale ≠ "" ∧ fallbackLocale ∉ specFallbacksBase locales then
    specFallbacksBase locales ++ [fallbackLocale]
  else specFallbacksBase locales

/-! ### Plural rule engine -/

/-- The `localeRules` table in `I18N::getPluralForm`; absent roots map to
rule 1 (English-like), matching the `ruleIt == end` default. -/
def localeRules (root : String) : Nat :=
  if root ∈ (["en", "de", "nl", "sv", "da", "no", "nb", "nn", "fo", "es",
      "pt", "it", "bg", "el", "fi", "et", "he", "eo"] : List String) then 1
  else if root ∈ (["ru", "uk", "be", "hr", "sr", "bs", "sh"] : List String) then 5
  else if root = "pl" then 21
  else if root ∈ (["cs", "sk"] : List String) then 7
  else if root ∈ (["fr", "ff", "kab"] : List String) then 9
  else if root = "ar" then 3
  else 1

/-- The `switch (rule)` body of `I18N::getPluralForm`; the explicit
`case 1` and the `default` branch coincide.  C++ `%` on `int` truncates
toward zero, which is `Int.tmod`. -/
def pluralByRule (rule : Nat) (count : Int) : String :=
  if rule = 5 then
    if count.tmod 10 = 1 ∧ count.tmod 100 ≠ 11 then "one"
    else if 2 ≤ count.tmod 10 ∧ count.tmod 10 ≤ 4 ∧
        (count.tmod 100 < 12 ∨ count.tmod 100 > 14) then "few"
    else if count.tmod 10 = 0 ∨ (5 ≤ count.tmod 10 ∧ count.tmod 10 ≤ 9) ∨
        (11 ≤ count.tmod 100 ∧ count.tmod 100 ≤ 14) then "many"
    else "other"
  else if rule = 21 then
    if count = 1 then "one"
    else if 2 ≤ count.tmod 10 ∧ count.tmod 10 ≤ 4 ∧
        (count.tmod 100 < 12 ∨ count.tmod 100 > 14) then "few"
    else "many"
  else if rule = 7 then
    if count = 1 then "one"
    else if 2 ≤ count ∧ count ≤ 4 then "few"
    else "other"
  else if rule = 9 then
    if count < 2 then "one" else "other"
  else if rule = 3 then
    if count = 0 then "zero"
    else if count = 1 then "one"
    else if count = 2 then "two"
    else if 3 ≤ count.tmod 100 ∧ count.tmod 100 ≤ 10 then "few"
    else if 11 ≤ count.tmod 100 ∧ count.tmod 100 ≤ 99 then "many"
    else "other"
  else if count = 1 then "one" else "other"

/-- `I18N::getPluralForm`: table lookup on the locale root, then the
family rule. -/
def getPluralForm (locale : String) (count : Int) : String :=
  pluralByRule (localeRules (getLocaleRoot locale)) count

/-! ### JSON serialization (`json::dump`), needed by `interpolate` for
non-string parameter values and by `localizedTranslate` for array nodes. -/

/-- Escape of one character inside a dumped JSON string literal. -/
def escapeChar (c : Char) : List Char :=
  if c = '"' then ['\\', '"']
  else if c = '\\' then ['\\', '\\']
  else if c = '\n' then ['\\', 'n']
  else if c = '\t' then ['\\', 't']
  else if c = '\r' then ['\\', 'r']
  else if c.toNat = 8 then ['\\', 'b']
  else if c.toNat = 12 then ['\\', 'f']
  else [c]

mutual

/-- `json::dump()` (compact form, integer numbers). -/
def jDump : Json → String
  | .null => "null"
  | .bool b => if b then "true" else "false"
  | .num n => intToString n
  | .str s => "\"" ++ String.mk (s.data.flatMap escapeChar) ++ "\""
  | .arr xs => "[" ++ String.intercalate "," (jDumpList xs) ++ "]"
  | .obj fields => "\x7b" ++ String.intercalate "," (jDumpFields fields) ++ "\x7d"

def jDumpList : List Json → List String
  | [] => []
  | x :: xs => jDump x :: jDumpList xs

def jDumpFields : List (String × Json) → List String
  | [] => []
  | (k, v) :: fs =>
    ("\"" ++ String.mk (k.data.flatMap escapeChar) ++ "\":" ++ jDump v) :: jDumpFields fs

end

/-! ### Interpolation engine

Each of the four `std::regex` scanners of the C++ source becomes one
left-to-right scan.  `std::regex_search` restarts after every match with
the range beginning just past it, and `^` (in `([^%]|^)`) matches at the
start of the searched range, so the guardless alternative is available
exactly at a scan start; the `atStart` flag records this. -/

/-- `\w` of `std::regex` (C locale): ASCII letters, digits, underscore. -/
def wordChar (c : Char) : Bool := c.isAlphanum || c = '_'

/-- The `[\w\.]` class used for interpolation keys. -/
def wordDotChar (c : Char) : Bool := c.isAlphanum || c = '_' || c = '.'

/-- Core of `fieldPattern` past the guard: a literal `%` and brace, a
non-empty greedy `[\w\.]+` key, a closing brace; yields the key and the
remaining input. -/
def fieldCore (cs : List Char) : Option (String × List Char) :=
  match cs with
  | c1 :: c2 :: rest =>
    if c1 = '%' ∧ c2 = '{' then
      let ks := rest.takeWhile wordDotChar
      if ks.isEmpty then none
      else
        match rest.dropWhile wordDotChar with
        | d :: r => if d = '}' then some (String.mk ks, r) else none
        | [] => none
    else none
  | _ => none

/-- Replacement text for one `%{key}` match in `I18N::interpolate`:
parameter values insert their string payload (strings), `dump()` form
(numbers and other types) or `true`/`false` (booleans); a missing key
re-emits the template verbatim. -/
def fieldReplacement (params : List (String × Json)) (key : String) : String :=
  match alistGet params key with
  | some v =>
    match v with
    | .str s => s
    | .num _ => jDump v
    | .bool b => if b then "true" else "false"
    | _ => jDump v
  | none => "%\x7b" ++ key ++ "\x7d"

/-- The `%{key}` scan loop of `I18N::interpolate`.  Fuel is decremented
once per consumed character, so `fuel = length` suffices; the guard
character of a match is re-emitted unchanged. -/
def fieldGo (params : List (String × Json)) :
    Nat → List Char → Bool → List Char
  | _, [], _ => []
  | 0, cs, _ => cs
  | fuel + 1, c :: cs, atStart =>
    if c ≠ '%' then
      match fieldCore cs with
      | some (key, rest) =>
        c :: ((fieldReplacement params key).data ++ fieldGo params fuel rest true)
      | none => c :: fieldGo params fuel cs false
    else if atStart then
      match fieldCore (c :: cs) with
      | some (key, rest) =>
        (fieldReplacement params key).data ++ fieldGo params fuel rest true
      | none => c :: fieldGo params fuel cs false
    else c :: fieldGo params fuel cs false

/-- The named-field pass over a whole string. -/
def fieldPass (params : List (String × Json)) (cs : List Char) : List Char :=
  fieldGo params cs.length cs true

/-- Core of `valuePattern` past the guard: `%<key>.f` with a non-empty
`[\w\.]+` key and a single `[\w]` format letter. -/
def valueCore (cs : List Char) : Option (String × Char × List Char) :=
  match cs with
  | c1 :: c2 :: rest =>
    if c1 = '%' ∧ c2 = '<' then
      let ks := rest.takeWhile wordDotChar
      if ks.isEmpty then none
      else
        match rest.dropWhile wordDotChar with
        | d1 :: d2 :: f :: r =>
          if d1 = '>' ∧ d2 = '.' ∧ wordChar f then some (String.mk ks, f, r)
          else none
        | _ => none
    else none
  | _ => none

/-- Replacement text for one `%<key>.fmt` match: `d`/`i` cast the value to
`int` (0 when non-numeric), `f` streams the `double` (0.0 when
non-numeric; integral doubles print without a decimal point, which the
integer number model renders exactly), `s` takes the string payload or the
`dump()` form, anything else the `dump()` form; a missing key re-emits the
template verbatim. -/
def valueReplacement (params : List (String × Json)) (key : String) (f : Char) :
    String :=
  match alistGet params key with
  | some v =>
    if f = 'd' ∨ f = 'i' then
      intToString (match v with | .num n => n | _ => 0)
    else if f = 'f' then
      (match v with | .num n => intToString n | _ => "0")
    else if f = 's' then
      (match v with | .str s => s | _ => jDump v)
    else jDump v
  | none => "%<" ++ key ++ ">." ++ String.mk [f]

/-- The `%<key>.fmt` scan loop of `I18N::interpolate`. -/
def valueGo (params : List (String × Json)) :
    Nat → List Char → Bool → List Char
  | _, [], _ => []
  | 0, cs, _ => cs
  | fuel + 1, c :: cs, atStart =>
    if c ≠ '%' then
      match valueCore cs with
      | some (key, f, rest) =>
        c :: ((valueReplacement params key f).data ++ valueGo params fuel rest true)
      | none => c :: valueGo params fuel cs false
    else if atStart then
      match valueCore (c :: cs) with
      | some (key, f, rest) =>
        (valueReplacement params key f).data ++ valueGo params fuel rest true
      | none => c :: valueGo params fuel cs false
    else c :: valueGo params fuel cs false

/-- The formatted-field pass over a whole string. -/
def valuePass (params : List (String × Json)) (cs : List Char) : List Char :=
  valueGo params cs.length cs true

/-- `I18N::interpolate`: non-object parameters and empty text short-circuit
unchanged; otherwise the named-field pass then the formatted-field pass. -/
def interpolate (text : String) (params : Json) : String :=
  match params with
  | .obj fields =>
    if text = "" then text
    else String.mk (valuePass fields (String.mk (fieldPass fields text.data)).data)
  | _ => text

/-- `indexPattern` (`{N}`) match at the head: the digit run (kept verbatim
for out-of-range indices, so leading zeros survive) and the remainder. -/
def indexCore (cs : List Char) : Option (List Char × List Char) :=
  match cs with
  | c :: rest =>
    if c = '{' then
      let ds := rest.takeWhile Char.isDigit
      if ds.isEmpty then none
      else
        match rest.dropWhile Char.isDigit with
        | d :: r => if d = '}' then some (ds, r) else none
        | [] => none
    else none
  | [] => none

/-- `std::stoi` on a digit run (overflow is not modelled; no claim
exercises indices beyond `int`). -/
def digitsToNat (ds : List Char) : Nat :=
  ds.foldl (fun n c => n * 10 + (c.toNat - 48)) 0

/-- The `{N}` scan loop of `I18N::interpolateArray`: in-range indices are
replaced by the corresponding parameter, out-of-range matches re-emit
`match[0]` verbatim. -/
def indexGo (params : List String) : Nat → List Char → List Char
  | _, [] => []
  | 0, cs => cs
  | fuel + 1, c :: cs =>
    match indexCore (c :: cs) with
    | some (ds, r) =>
      (match params[digitsToNat ds]? with
       | some v => v.data
       | none => '{' :: ds ++ ['}']) ++ indexGo params fuel r
    | none => c :: indexGo params fuel cs

/-- The numbered-placeholder pass over a whole string. -/
def indexPass (params : List String) (cs : List Char) : List Char :=
  indexGo params cs.length cs

/-- `emptyBracePattern` (`{}`) match at the head. -/
def braceCore (cs : List Char) : Option (List Char) :=
  match cs with
  | c1 :: c2 :: r => if c1 = '{' ∧ c2 = '}' then some r else none
  | _ => none

/-- The `{}` scan loop of `I18N::interpolateArray`: a running cursor
consumes parameters left to right; exhausted placeholders stay. -/
def braceGo (params : List String) : Nat → List Char → Nat → List Char
  | _, [], _ => []
  | 0, cs, _ => cs
  | fuel + 1, c :: cs, i =>
    match braceCore (c :: cs) with
    | some r =>
      (match params[i]? with
       | some v => v.data ++ braceGo params fuel r (i + 1)
       | none => '{' :: '}' :: braceGo params fuel r i)
    | none => c :: braceGo params fuel cs i

/-- The unnumbered-placeholder pass over a whole string. -/
def bracePass (params : List String) (cs : List Char) : List Char :=
  braceGo params cs.length cs 0

/-- `I18N::interpolateArray`: empty parameters or empty text
short-circuit unchanged; otherwise the `{N}` pass then the `{}` pass. -/
def interpolateArray (text : String) (params : List String) : String :=
  if params.isEmpty ∨ text = "" then text
  else String.mk (bracePass params (indexPass params text.data))

/-- Whether `fieldPattern` matches anywhere in the input; `atStart` is the
availability of the guardless `^` alternative at the current scan start. -/
def hasField : List Char → Bool → Bool
  | [], _ => false
  | c :: cs, atStart =>
    if c ≠ '%' then (fieldCore cs).isSome || hasField cs false
    else if atStart then (fieldCore (c :: cs)).isSome || hasField cs false
    else hasField cs false

/-- Whether `valuePattern` matches anywhere in the input. -/
def hasValue : List Char → Bool → Bool
  | [], _ => false
  | c :: cs, atStart =>
    if c ≠ '%' then (valueCore cs).isSome || hasValue cs false
    else if atStart then (valueCore (c :: cs)).isSome || hasValue cs false
    else hasValue cs false

/-- Whether `indexPattern` matches anywhere in the input. -/
def hasIndex : List Char → Bool
  | [] => false
  | c :: cs => (indexCore (c :: cs)).isSome || hasIndex cs

/-- Whether `emptyBracePattern` matches anywhere in the input. -/
def hasBrace : List Char → Bool
  | [] => false
  | c :: cs => (braceCore (c :: cs)).isSome || hasBrace cs

/-- The keys of every `%{key}` match the named-field scan processes, in
scan order.  This list does not depend on the parameter object: a match is
consumed (and the scan resumes after it) whether or not its key
resolves. -/
def fieldKeys : Nat → List Char → Bool → List String
  | _, [], _ => []
  | 0, _, _ => []
  | fuel + 1, c :: cs, atStart =>
    if c ≠ '%' then
      match fieldCore cs with
      | some (key, rest) => key :: fieldKeys fuel rest true
      | none => fieldKeys fuel cs false
    else if atStart then
      match fieldCore (c :: cs) with
      | some (key, rest) => key :: fieldKeys fuel rest true
      | none => fieldKeys fuel cs false
    else fieldKeys fuel cs false

/-- The keys of every `%<key>.f` match the formatted-field scan
processes, in scan order. -/
def valueKeys : Nat → List Char → Bool → List String
  | _, [], _ => []
  | 0, _, _ => []
  | fuel + 1, c :: cs, atStart =>
    if c ≠ '%' then
      match valueCore cs with
      | some (key, _, rest) => key :: valueKeys fuel rest true
      | none => valueKeys fuel cs false
    else if atStart then
      match valueCore (c :: cs) with
      | some (key, _, rest) => key :: valueKeys fuel rest true
      | none => valueKeys fuel cs false
    else valueKeys fuel cs false

/-- The digit runs of every `{N}` match the numbered-placeholder scan
processes, in scan order. -/
def indexRuns : Nat → List Char → List (List Char)
  | _, [] => []
  | 0, _ => []
  | fuel + 1, c :: cs =>
    match indexCore (c :: cs) with
    | some (ds, r) => ds :: indexRuns fuel r
    | none => indexRuns fuel cs

/-! ### Plural / variant handling and the translation resolvers -/

/-- The `count` extraction of `I18N::handlePlural`: the `count` parameter
when present and numeric, else 1. -/
def pluralCount (params : Json) : Int :=
  match jGet params "count" with
  | some (.num n) => n
  | _ => 1

/-- `I18N::handlePlural`: category key, then `"other"`, then the decimal
count; sentinels for non-object data and for no matching form.  A selected
non-string value makes `get<std::string>()` throw, modelled by `.error`. -/
def handlePlural (pluralData : Json) (locale : String) (params : Json) :
    Except String String :=
  match pluralData with
  | .obj fields =>
    let count := pluralCount params
    let pluralForm := getPluralForm locale count
    match alistGet fields pluralForm with
    | some v => getStr v
    | none =>
      match alistGet fields "other" with
      | some v => getStr v
      | none =>
        match alistGet fields (intToString count) with
        | some v => getStr v
        | none => .ok "[plural: missing form]"
  | _ => .ok "[plural: data not object]"

/-- `I18N::handlePluralWithArray`: same form selection, then the array
interpolation with the count prefixed as positional parameter 0. -/
def handlePluralWithArray (pluralData : Json) (locale : String) (count : Int)
    (params : List String) : Except String String :=
  match pluralData with
  | .obj fields =>
    let pluralForm := getPluralForm locale count
    let render := fun (v : Json) =>
      (getStr v).map (fun t => interpolateArray t (intToString count :: params))
    match alistGet fields pluralForm with
    | some v => render v
    | none =>
      match alistGet fields "other" with
      | some v => render v
      | none =>
        match alistGet fields (intToString count) with
        | some v => render v
        | none => .ok "[plural: missing form]"
  | _ => .ok "[plural: data not object]"

/-- Scan of `I18N::handleVariant`: the first string-valued parameter whose
value is a key of the variant object. -/
def findVariant (vfields : List (String × Json)) : List Json → Option Json
  | [] => none
  | .str s :: rest =>
    (match alistGet vfields s with
     | some v => some v
     | none => findVariant vfields rest)
  | _ :: rest => findVariant vfields rest

/-- `I18N::handleVariant`. -/
def handleVariant (variantData : Json) (params : Json) : Except String String :=
  match variantData with
  | .obj vfields =>
    match findVariant vfields (jIterValues params) with
    | some v => getStr v
    | none =>
      match alistGet vfields "other" with
      | some v => getStr v
      | none => .ok "[variant: no match]"
  | _ => .ok "[variant: data not object]"

/-- `I18N::localizedTranslate`: classify the node found for one locale;
an absent node resolves to the empty string. -/
def localizedTranslate (st : I18NState) (key : String) (locale : String)
    (params : Json) : Except String String :=
  match getTranslationData st key locale with
  | none => .ok ""
  | some d =>
    match d with
    | .str s => .ok (interpolate s params)
    | .obj _ =>
      if jContains params "count" then
        (handlePlural d locale params).map (fun s => interpolate s params)
      else
        (handleVariant d params).map (fun s => interpolate s params)
    | .arr _ => .ok (jDump d)
    | _ => .ok "[unsupported translation type]"

/-- Exhaustion result of `I18N::translate`: the interpolated string-valued
`"default"` parameter when present, else the literal key. -/
def translateDefault (key : String) (params : Json) : Except String String :=
  match jGet params "default" with
  | some (.str d) => .ok (interpolate d params)
  | _ => .ok key

/-- The candidate loop of `I18N::translate`: first non-empty resolved
string wins; empty results continue the search; thrown errors propagate. -/
def translateLoop (st : I18NState) (key : String) (params : Json) :
    List String → Except String String
  | [] => translateDefault key params
  | loc :: rest =>
    match localizedTranslate st key loc params with
    | .error e => .error e
    | .ok t => if t = "" then translateLoop st key params rest else .ok t

/-- `I18N::translate`: empty keys short-circuit; a string-valued
`"locale"` parameter is prepended to the searched locales for this call. -/
def searchLocalesOf (st : I18NState) (params : Json) : List String :=
  match jGet params "locale" with
  | some (.str l) => l :: st.locales
  | _ => st.locales

/-- `I18N::translate` proper: the short-circuit, the per-call locale list
and the candidate loop. -/
def translate (st : I18NState) (key : String) (params : Json) :
    Except String String :=
  if key = "" then .ok ""
  else
    translateLoop st key params
      (getFallbacks st.fallbackLocale (searchLocalesOf st params))

/-- The candidate loop of `I18N::tr`: continue on a missing node, on an
empty object, and on array/primitive nodes; return on a string node or on
an object via its `"other"` entry or its first entry. -/
def trLoop (st : I18NState) (key : String) (params : List String) :
    List String → Except String String
  | [] => .ok key
  | loc :: rest =>
    match getTranslationData st key loc with
    | none => trLoop st key params rest
    | some (.str s) => .ok (interpolateArray s params)
    | some (.obj fields) =>
      (match alistGet fields "other" with
       | some v => (getStr v).map (fun t => interpolateArray t params)
       | none =>
         match fields with
         | [] => trLoop st key params rest
         | (_, v) :: _ => (getStr v).map (fun t => interpolateArray t params))
    | some _ => trLoop st key params rest

/-- `I18N::tr` (vector-parameter overload). -/
def tr (st : I18NState) (key : String) (params : List String) :
    Except String String :=
  if key = "" then .ok ""
  else trLoop st key params (getFallbacks st.fallbackLocale st.locales)

/-- The candidate loop of `I18N::trPlural`: continue on a missing node and
on non-object non-string nodes; object nodes go to plural handling, string
nodes are interpolated with the count prefixed as parameter 0. -/
def trPluralLoop (st : I18NState) (key : String) (count : Int)
    (params : List String) : List String → Except String String
  | [] => .ok key
  | loc :: rest =>
    match getTranslationData st key loc with
    | none => trPluralLoop st key count params rest
    | some (.obj fields) => handlePluralWithArray (.obj fields) loc count params
    | some (.str s) => .ok (interpolateArray s (intToString count :: params))
    | some _ => trPluralLoop st key count params rest

/-- `I18N::trPlural` (vector-parameter overload). -/
def trPlural (st : I18NState) (key : String) (count : Int)
    (params : List String) : Except String String :=
  if key = "" then .ok ""
  else trPluralLoop st key count params (getFallbacks st.fallbackLocale st.locales)

/-- One candidate of `translate`'s loop, as an optional outcome: `none`
exactly when the candidate resolves to the empty string (which is also
what a missing key resolves to), so the loop is "first non-empty resolved
string wins"; thrown errors are outcomes and stop the search. -/
def translateStep (st : I18NState) (key : String) (params : Json)
    (loc : String) : Option (Except String String) :=
  match localizedTranslate st key loc params with
  | .error e => some (.error e)
  | .ok t => if t = "" then none else some (.ok t)

/-- One candidate of `tr`'s loop, as an optional outcome: `none` exactly
when the lookup fails or the node has no usable shape (empty object,
array, primitive); a found string or non-empty object node is an outcome
even when it renders to the empty string. -/
def trStep (st : I18NState) (key : String) (params : List String)
    (loc : String) : Option (Except String String) :=
  match getTranslationData st key loc with
  | none => none
  | some (.str s) => some (.ok (interpolateArray s params))
  | some (.obj fields) =>
    (match alistGet fields "other" with
     | some v => some ((getStr v).map (fun t => interpolateArray t params))
     | none =>
       match fields with
       | [] => none
       | (_, v) :: _ =>
         some ((getStr v).map (fun t => interpolateArray t params)))
  | some _ => none

/-- One candidate of `trPlural`'s loop, as an optional outcome: `none`
exactly when the lookup fails or the node is neither an object nor a
string. -/
def trPluralStep (st : I18NState) (key : String) (count : Int)
    (params : List String) (loc : String) : Option (Except String String) :=
  match getTranslationData st key loc with
  | none => none
  | some (.obj fields) =>
    some (handlePluralWithArray (.obj fields) loc count params)
  | some (.str s) =>
    some (.ok (interpolateArray s (intToString count :: params)))
  | some _ => none

/-- `I18N::keyExists`: false for an empty active-locale list, else a
lookup over the fallback-expanded candidates (the surrounding `try/catch`
has nothing to catch in this embedding, matching "never throws"). -/
def keyExists (st : I18NState) (key : String) : Bool :=
  if st.locales.isEmpty then false
  else
    (getFallbacks st.fallbackLocale st.locales).any
      (fun loc => (getTranslationData st key loc).isSome)

/-! ### The flattening `I18N::load` -/

/-- `operator[]`-style write into `localesData`. -/
def mapSet (m : List (String × Json)) (k : String) (v : Json) :
    List (String × Json) :=
  if m.any (fun p => p.1 == k) then
    m.map (fun p => if p.1 == k then (k, v) else p)
  else m ++ [(k, v)]

/-- The `recursiveLoad` lambda of `I18N::load`: walk the object, skip
`_formats` (its `configure` side effect touches only the format
configuration, not `localesData`), store string and array leaves under the
dot-composed key, recurse into objects.  Fuel bounds the nesting depth;
`load` passes `sizeOf`, which always suffices. -/
def loadAux : Nat → String → List (String × Json) → List (String × Json) →
    List (String × Json)
  | 0, _, _, acc => acc
  | _, _, [], acc => acc
  | fuel + 1, ctx, (k, v) :: rest, acc =>
    let acc :=
      if k == "_formats" then acc
      else
        let composedKey := if ctx == "" then k else ctx ++ "." ++ k
        match v with
        | .str _ => mapSet acc composedKey v
        | .arr _ => mapSet acc composedKey v
        | .obj sub => loadAux fuel composedKey sub acc
        | _ => acc
    loadAux fuel ctx rest acc

mutual

/-- Node count of a `Json` tree, used as the fuel bound for `loadAux`. -/
def jsonSize : Json → Nat
  | .obj fields => 1 + fieldsSize fields
  | .arr xs => 1 + elemsSize xs
  | _ => 1

def elemsSize : List Json → Nat
  | [] => 0
  | x :: xs => jsonSize x + elemsSize xs

def fieldsSize : List (String × Json) → Nat
  | [] => 0
  | (_, v) :: fs => jsonSize v + fieldsSize fs

end

/-- `I18N::load`: merges flattened dotted keys into `localesData`. -/
def load (st : I18NState) (data : Json) : I18NState :=
  match data with
  | .obj fields =>
    { st with localesData := loadAux (jsonSize data) "" fields st.localesData }
  | _ => st

/-- `I18N::setLocale(string_view)` restricted to the state fields the
claims touch (the format-configuration switch is not modelled). -/
def setLocale (st : I18NState) (locale : String) : I18NState :=
  { st with locales := [locale] }

/-- `I18N::reset` restricted to the modelled fields. -/
def resetState : I18NState :=
  { locales := [], fallbackLocale := "en", localesData := [] }

/-! ### Number formatting

`double` arithmetic is modelled exactly over `ℚ`; the claims' concrete
inputs are exactly representable doubles, so the model agrees with the
machine arithmetic there.  `NumberConfig::fract_digits` is an `int` in the
header but only meaningful when non-negative; it is modelled as `Nat`. -/

structure NumberConfig where
  decimal_symbol : String
  thousand_separator : String
  fract_digits : Nat
  positive_symbol : String
  negative_symbol : String

/-- The `NumberConfig` defaults of the header. -/
def defaultNumberConfig : NumberConfig := ⟨".", " ", 2, "", "-"⟩

/-- `std::round`: halfway cases away from zero. -/
def cppRound (q : ℚ) : Int := if q < 0 then -⌊-q + 1 / 2⌋ else ⌊q + 1 / 2⌋

/-- `static_cast<long long>` on a `double`: truncation toward zero. -/
def cppTrunc (q : ℚ) : Int := if q < 0 then -⌊-q⌋ else ⌊q⌋

/-- The separator-insertion loop of `I18N::separateThousand`, run on the
reversed digit list (the C++ inserts at positions `len-3, len-6, …` from
the right); fuel is decremented per inserted separator. -/
def groupRevGo (sepR : List Char) : Nat → List Char → List Char
  | 0, l => l
  | fuel + 1, l =>
    if l.length ≤ 3 then l
    else l.take 3 ++ sepR ++ groupRevGo sepR fuel (l.drop 3)

/-- `I18N::separateThousand`: split at the first `.`, strip a leading
minus, group the integer digits into triples from the right. -/
def separateThousand (amount : String) (sep : String) : String :=
  let cs := amount.data
  let intPart := cs.takeWhile (fun c => c ≠ '.')
  let fracPart := cs.dropWhile (fun c => c ≠ '.')
  let isNeg := intPart.head? = some '-'
  let ip := if isNeg then intPart.tail else intPart
  let grouped := (groupRevGo sep.data.reverse ip.length ip.reverse).reverse
  String.mk ((if isNeg then ['-'] else []) ++ grouped ++ fracPart)

/-- Zero padding of the fractional digits to exactly `d` places (the
conditional prepend in the C++ source, as a total function). -/
def zeroPad (d : Nat) (s : String) : String :=
  String.mk (List.replicate (d - s.length) '0') ++ s

/-- `I18N::formatNumberWithConfig`. -/
def formatNumberWithConfig (number : ℚ) (config : NumberConfig) : String :=
  let isNegative := number < 0
  let absNumber := |number|
  let p : ℚ := 10 ^ config.fract_digits
  let rounded : ℚ := (cppRound (absNumber * p) : ℚ) / p
  let integerPart : Int := cppTrunc rounded
  let fractionalPart : ℚ := rounded - (integerPart : ℚ)
  let integerStr := separateThousand (intToString integerPart) config.thousand_separator
  let result :=
    if 0 < config.fract_digits then
      let scaledFract : Int := cppRound (fractionalPart * p)
      let fractionalStr := intToString scaledFract
      let pad :=
        if fractionalStr.length < config.fract_digits then
          String.mk (List.replicate (config.fract_digits - fractionalStr.length) '0')
        else ""
      integerStr ++ config.decimal_symbol ++ pad ++ fractionalStr
    else integerStr
  if isNegative then config.negative_symbol ++ result
  else if config.positive_symbol ≠ "" then config.positive_symbol ++ result
  else result

/-- `I18N::formatNumber` under the library-wide default configuration. -/
def formatNumber (number : ℚ) : String :=
  formatNumberWithConfig number defaultNumberConfig

/-! ### Concrete states used by the claim instances -/

/-- The §8 dataset `en.greeting.one / en.greeting.other`, as fed to the
flattening `load`. -/
def c4Dataset : Json :=
  .obj [("en", .obj [("greeting", .obj
    [("one", .str "Hello, friend!"),
     ("other", .str "Hello, \x7b\x7d friends!")])])]

/-- The state after `reset`, `load(c4Dataset)`, `setLocale("en")`. -/
def c4State : I18NState := setLocale (load resetState c4Dataset) "en"

/-- A dataset whose sole locale maps key `k` to the empty string. -/
def c1State : I18NState :=
  { locales := ["en"], fallbackLocale := "en",
    localesData := [("en", .obj [("k", .str "")])] }

/-- A dataset whose plural object carries a non-string form value. -/
def c5State : I18NState :=
  { locales := ["en"], fallbackLocale := "en",
    localesData := [("en", .obj [("item", .obj [("one", .num 42)])])] }

/-- A state with data for the fallback locale but an empty active-locale
list. -/
def c6State : I18NState :=
  { locales := [], fallbackLocale := "en",
    localesData := [("en", .obj [("k", .str "v")])] }

/-! ## Claims -/

/-- C10: `translate`, `tr` and `trPlural` return the empty string
immediately for an empty key, for every state (hence without consulting
the dataset or the fallback chain), every parameter tree including one
with a `"default"` entry, every positional parameter list and every
count. -/
theorem empty_key_short_circuit :
    ∀ (st : I18NState) (params : Json) (aparams : List String) (count : Int),
      translate st "" params = .ok "" ∧ tr st "" aparams = .ok "" ∧
        trPlural st "" count aparams = .ok "" := by
  intro st params aparams count
  exact ⟨rfl, rfl, rfl⟩

/-- C3: the plural category function applied to a locale whose root is in
the Slavic table obeys the Slavic family rule (`%` is the truncating C++
`int` modulo), and the eight concrete category values of the specification
hold. -/
theorem plural_category_rules :
    (∀ (locale : String) (n : Int),
        getLocaleRoot locale ∈
            (["ru", "uk", "be", "hr", "sr", "bs", "sh"] : List String) →
        getPluralForm locale n =
          (if n.tmod 10 = 1 ∧ n.tmod 100 ≠ 11 then "one"
           else if (n.tmod 10 = 2 ∨ n.tmod 10 = 3 ∨ n.tmod 10 = 4) ∧
               ¬(n.tmod 100 = 12 ∨ n.tmod 100 = 13 ∨ n.tmod 100 = 14) then "few"
           else if n.tmod 10 = 0 ∨ (5 ≤ n.tmod 10 ∧ n.tmod 10 ≤ 9) ∨
               (11 ≤ n.tmod 100 ∧ n.tmod 100 ≤ 14) then "many"
           else "other"))
    ∧ getPluralForm "ru" 21 = "one" ∧ getPluralForm "ru" 22 = "few"
    ∧ getPluralForm "ru" 25 = "many" ∧ getPluralForm "pl" 1 = "one"
    ∧ getPluralForm "ar" 2 = "two" ∧ getPluralForm "cs" 3 = "few"
    ∧ getPluralForm "en" 1 = "one" ∧ getPluralForm "en" 0 = "other" := by
  refine ⟨?_, by decide, by decide, by decide, by decide, by decide,
    by decide, by decide, by decide⟩
  intro locale n h
  have h5 : localeRules (getLocaleRoot locale) = 5 := by
    simp only [List.mem_cons, List.not_mem_nil, or_false] at h
    rcases h with h | h | h | h | h | h | h <;> rw [h] <;> decide
  show pluralByRule (localeRules (getLocaleRoot locale)) n = _
  rw [h5]
  simp only [pluralByRule]
  norm_num
  generalize n.tmod 10 = t
  generalize n.tmod 100 = u
  split_ifs <;> first | rfl | omega

/-- C3 witness: the Slavic rule instantiated at locale `"ru-RU"` and
count 7. -/
theorem plural_category_rules_witness :
    getLocaleRoot "ru-RU" ∈
        (["ru", "uk", "be", "hr", "sr", "bs", "sh"] : List String)
    ∧ getPluralForm "ru-RU" 7 =
        (if (7 : Int).tmod 10 = 1 ∧ (7 : Int).tmod 100 ≠ 11 then "one"
         else if ((7 : Int).tmod 10 = 2 ∨ (7 : Int).tmod 10 = 3 ∨
             (7 : Int).tmod 10 = 4) ∧
             ¬((7 : Int).tmod 100 = 12 ∨ (7 : Int).tmod 100 = 13 ∨
               (7 : Int).tmod 100 = 14) then "few"
         else if (7 : Int).tmod 10 = 0 ∨
             (5 ≤ (7 : Int).tmod 10 ∧ (7 : Int).tmod 10 ≤ 9) ∨
             (11 ≤ (7 : Int).tmod 100 ∧ (7 : Int).tmod 100 ≤ 14) then "many"
         else "other") :=
  ⟨by decide, plural_category_rules.1 "ru-RU" 7 (by decide)⟩

/-- C4 (code bug): after the flattening `load` of the §8 dataset and
`setLocale("en")`, `trPlural("greeting", 1)` returns the literal key
`"greeting"`, not `"Hello, friend!"` (and likewise for count 3), because
`load` writes the flattened dotted keys `en.greeting.one` /
`en.greeting.other` into the locale-keyed `localesData` map, where
`getTranslationData` — which looks up the entry named exactly by the
locale — can never reach them. -/
theorem flattening_load_unreachable_eval :
    trPlural c4State "greeting" 1 [] = .ok "greeting"
    ∧ trPlural c4State "greeting" 3 [] = .ok "greeting"
    ∧ (load resetState c4Dataset).localesData.map Prod.fst
        = ["en.greeting.one", "en.greeting.other"]
    ∧ keyExists c4State "greeting" = false :=
  ⟨rfl, rfl, rfl, rfl⟩

/-- C1 counterexample: with active locale `en` resolving key `k` to the
empty string, no candidate yields a non-empty resolved string, yet `tr`
returns the empty string instead of continuing the search and falling back
to the literal key `"k"` — the array-parameter loops skip only on failed
lookups, not on empty resolved strings. -/
theorem tr_empty_resolution_cex :
    tr c1State "k" [] = .ok ""
    ∧ (Except.ok "" : Except String String) ≠ .ok "k" :=
  ⟨rfl, fun h => by simp at h⟩

/-! ### Lemmas on the fallback resolver -/

theorem dedupFold_nil (acc : List String) : dedupFold acc [] = acc := rfl

theorem dedupFold_cons (acc : List String) (x : String) (xs : List String) :
    dedupFold acc (x :: xs) =
      dedupFold (if x ∈ acc then acc else acc ++ [x]) xs := rfl

theorem dedupFold_sub (xs : List String) :
    ∀ acc, ∃ t, dedupFold acc xs = acc ++ t := by
  induction xs with
  | nil => exact fun acc => ⟨[], by simp [dedupFold_nil]⟩
  | cons x xs ih =>
    intro acc
    rw [dedupFold_cons]
    by_cases hx : x ∈ acc
    · simpa [hx] using ih acc
    · obtain ⟨t, ht⟩ := ih (acc ++ [x])
      exact ⟨x :: t, by simp [hx, ht]⟩

theorem mem_dedupFold (xs : List String) :
    ∀ acc y, y ∈ dedupFold acc xs ↔ y ∈ acc ∨ y ∈ xs := by
  induction xs with
  | nil => simp [dedupFold_nil]
  | cons x xs ih =>
    intro acc y
    rw [dedupFold_cons]
    by_cases hx : x ∈ acc
    · rw [if_pos hx, ih]
      constructor
      · rintro (h | h)
        · exact Or.inl h
        · exact Or.inr (List.mem_cons_of_mem _ h)
      · rintro (h | h)
        · exact Or.inl h
        · rcases List.mem_cons.mp h with h | h
          · exact Or.inl (h ▸ hx)
          · exact Or.inr h
    · rw [if_neg hx, ih]
      simp only [List.mem_append, List.mem_singleton, List.mem_cons]
      tauto

theorem dedupFold_nodup (xs : List String) :
    ∀ acc, acc.Nodup → (dedupFold acc xs).Nodup := by
  induction xs with
  | nil => exact fun acc h => h
  | cons x xs ih =>
    intro acc hacc
    rw [dedupFold_cons]
    by_cases hx : x ∈ acc
    · rw [if_pos hx]; exact ih acc hacc
    · rw [if_neg hx]
      exact ih _ (by simp [List.nodup_append, hacc, hx])

theorem dedupFold_eq_filter (xs : List String) :
    ∀ acc, xs.Nodup → dedupFold acc xs = acc ++ xs.filter (fun a => a ∉ acc) := by
  induction xs with
  | nil => simp [dedupFold_nil]
  | cons x xs ih =>
    intro acc hnd
    rw [dedupFold_cons]
    rcases List.nodup_cons.mp hnd with ⟨hx, hnd'⟩
    by_cases hmem : x ∈ acc
    · rw [if_pos hmem, ih acc hnd']
      simp [List.filter_cons, hmem]
    · rw [if_neg hmem, ih _ hnd']
      have hfilter : List.filter (fun a => decide (a ∉ acc ++ [x])) xs =
          List.filter (fun a => decide (a ∉ acc)) xs := by
        apply List.filter_congr
        intro a ha
        have hax : a ≠ x := fun h => hx (h ▸ ha)
        simp [List.mem_append, hax]
      rw [hfilter, List.filter_cons, List.append_assoc]
      simp [hmem]

/-! ### Lemmas on locale ancestry -/

theorem ancestryAux_last (cs : List Char) :
    ∀ current res, (ancestryAux cs current res).getLast? =
      some (current ++ cs) := by
  induction cs with
  | nil => intro current res; simp [ancestryAux]
  | cons c cs ih =>
    intro current res
    rw [ancestryAux, ih]
    simp

/-- The length-sortedness invariant of the ancestry accumulator. -/
theorem ancestryAux_pairwise (cs : List Char) :
    ∀ current res, (∀ r ∈ res, r.length < current.length) →
      List.Pairwise (fun a b : List Char => a.length < b.length) res →
      List.Pairwise (fun a b : List Char => a.length < b.length)
        (ancestryAux cs current res) := by
  induction cs with
  | nil =>
    intro current res hlt hpw
    rw [ancestryAux]
    rw [List.pairwise_append]
    exact ⟨hpw, List.pairwise_singleton _ _, by simpa using hlt⟩
  | cons c cs ih =>
    intro current res hlt hpw
    rw [ancestryAux]
    by_cases hc : c = '-'
    · rw [if_pos hc]
      apply ih
      · intro r hr
        rcases List.mem_append.mp hr with h | h
        · have := hlt r h; simp; omega
        · simp at h; subst h; simp
      · rw [List.pairwise_append]
        exact ⟨hpw, List.pairwise_singleton _ _, by simpa using hlt⟩
    · rw [if_neg hc]
      apply ih
      · intro r hr; have := hlt r hr; simp; omega
      · exact hpw

theorem getLocaleAncestry_nodup (locale : String) :
    (getLocaleAncestry locale).Nodup := by
  rw [getLocaleAncestry, List.nodup_reverse]
  have hpw := ancestryAux_pairwise locale.data [] [] (by simp) (by simp)
  have hnd : (ancestryAux locale.data [] []).Nodup :=
    hpw.imp fun h heq => absurd h (by rw [heq]; exact lt_irrefl _)
  exact hnd.map (fun a b hab => congrArg String.data hab)

theorem getLocaleAncestry_head (locale : String) :
    (getLocaleAncestry locale).head? = some locale := by
  rw [getLocaleAncestry, List.head?_reverse, List.getLast?_map,
    ancestryAux_last]
  rfl

theorem fallbacksBase_eq_spec (ls : List String) :
    fallbacksBase ls = specFallbacksBase ls := by
  rw [fallbacksBase, specFallbacksBase]
  generalize ([] : List String) = acc
  induction ls generalizing acc with
  | nil => rfl
  | cons l ls ih =>
    rw [List.foldl_cons, List.foldl_cons,
      dedupFold_eq_filter _ _ (getLocaleAncestry_nodup l), ih]

theorem fallbacksBase_nodup (ls : List String) : (fallbacksBase ls).Nodup := by
  rw [fallbacksBase]
  have h : (([] : List String)).Nodup := List.nodup_nil
  generalize ([] : List String) = acc at h ⊢
  induction ls generalizing acc with
  | nil => exact h
  | cons l ls ih =>
    rw [List.foldl_cons]
    exact ih _ (dedupFold_nodup _ _ h)

theorem mem_fallbacksBase (ls : List String) (y : String) :
    y ∈ fallbacksBase ls ↔ ∃ l ∈ ls, y ∈ getLocaleAncestry l := by
  rw [fallbacksBase]
  have h : ∀ acc, y ∈ ls.foldl (fun res l => dedupFold res (getLocaleAncestry l)) acc ↔
      y ∈ acc ∨ ∃ l ∈ ls, y ∈ getLocaleAncestry l := by
    induction ls with
    | nil => simp
    | cons l ls ih =>
      intro acc
      rw [List.foldl_cons, ih, mem_dedupFold]
      simp only [List.exists_mem_cons_iff]
      tauto
  rw [h]
  simp

theorem fallbacksBase_single (L : String) :
    fallbacksBase [L] = getLocaleAncestry L := by
  show dedupFold [] (getLocaleAncestry L) = getLocaleAncestry L
  rw [dedupFold_eq_filter _ _ (getLocaleAncestry_nodup L)]
  simp

theorem getFallbacks_nodup (fb : String) (ls : List String) :
    (getFallbacks fb ls).Nodup := by
  rw [getFallbacks]
  split_ifs with h
  · simp [List.nodup_append, fallbacksBase_nodup, h.2]
  · exact fallbacksBase_nodup ls

/-- C2: the ancestry of `en-US-NY` is its hyphen prefixes most specific
first; `getFallbacks` equals the spec-worded resolver (ancestries
concatenated in order, skipping values already emitted, fallback appended
when non-empty and missing); the result never contains duplicates; and for
a single locale whose ancestry avoids a non-empty fallback locale, the
result ends with that fallback locale. -/
theorem fallback_resolver_correct :
    getLocaleAncestry "en-US-NY" = ["en-US-NY", "en-US", "en"]
    ∧ (∀ fb ls, getFallbacks fb ls = specFallbacks fb ls)
    ∧ (∀ fb ls, (getFallbacks fb ls).Nodup)
    ∧ (∀ fb L, fb ≠ "" → fb ∉ getLocaleAncestry L →
        (getFallbacks fb [L]).getLast? = some fb) := by
  refine ⟨by decide, ?_, getFallbacks_nodup, ?_⟩
  · intro fb ls
    rw [getFallbacks, specFallbacks, fallbacksBase_eq_spec]
  · intro fb L hfb hmem
    rw [getFallbacks, if_pos ⟨hfb, by rwa [fallbacksBase_single]⟩,
      List.getLast?_concat]

/-- C2 witness: the fallback list for the single active locale `ru-RU`
with fallback locale `en` ends with `en`. -/
theorem fallback_resolver_correct_witness :
    ("en" : String) ≠ "" ∧ "en" ∉ getLocaleAncestry "ru-RU" ∧
      (getFallbacks "en" ["ru-RU"]).getLast? = some "en" :=
  ⟨by decide, by decide,
    fallback_resolver_correct.2.2.2 "en" "ru-RU" (by decide) (by decide)⟩

theorem dedupFold_from_nil (xs : List String) (h : xs.Nodup) :
    dedupFold [] xs = xs := by
  rw [dedupFold_eq_filter _ _ h]
  simp

theorem foldl_dedup_sub (ls : List String) :
    ∀ acc, ∃ t,
      ls.foldl (fun res l => dedupFold res (getLocaleAncestry l)) acc =
        acc ++ t := by
  induction ls with
  | nil => exact fun acc => ⟨[], by simp⟩
  | cons l ls ih =>
    intro acc
    rw [List.foldl_cons]
    obtain ⟨t1, ht1⟩ := dedupFold_sub (getLocaleAncestry l) acc
    obtain ⟨t2, ht2⟩ := ih (dedupFold acc (getLocaleAncestry l))
    exact ⟨t1 ++ t2, by rw [ht2, ht1, List.append_assoc]⟩

theorem fallbacksBase_cons_sub (L : String) (ls : List String) :
    ∃ t, fallbacksBase (L :: ls) = getLocaleAncestry L ++ t := by
  rw [fallbacksBase, List.foldl_cons,
    dedupFold_from_nil _ (getLocaleAncestry_nodup L)]
  exact foldl_dedup_sub ls (getLocaleAncestry L)

theorem getFallbacks_cons_sub (fb : String) (L : String) (ls : List String) :
    ∃ rest, getFallbacks fb (L :: ls) = getLocaleAncestry L ++ rest := by
  obtain ⟨t, ht⟩ := fallbacksBase_cons_sub L ls
  rw [getFallbacks]
  split_ifs with h
  · exact ⟨t ++ [fb], by rw [ht, List.append_assoc]⟩
  · exact ⟨t, ht⟩

/-- C9: when the parameter tree carries a string-valued `"locale"` entry,
`translate` resolves over the fallback expansion of that locale prepended
to the active locale list — so the candidate list opens with the override
locale's full ancestry — while the stored active locales are untouched
(the embedding is pure: `translate` returns only the resolved string and
never a modified state). -/
theorem translate_locale_override :
    ∀ (st : I18NState) (key : String) (params : Json) (L : String),
      jGet params "locale" = some (.str L) → key ≠ "" →
      translate st key params =
        translateLoop st key params
          (getFallbacks st.fallbackLocale (L :: st.locales))
      ∧ ∃ rest, getFallbacks st.fallbackLocale (L :: st.locales) =
          getLocaleAncestry L ++ rest := by
  intro st key params L hloc hkey
  constructor
  · rw [translate, if_neg hkey, searchLocalesOf, hloc]
  · exact getFallbacks_cons_sub st.fallbackLocale L st.locales

/-- C9 witness: the override locale `fr` on a state with active locale
`en`. -/
theorem translate_locale_override_witness :
    jGet (Json.obj [("locale", Json.str "fr")]) "locale" =
        some (Json.str "fr")
    ∧ ("greet" : String) ≠ ""
    ∧ (translate ⟨["en"], "en", []⟩ "greet"
          (Json.obj [("locale", Json.str "fr")]) =
        translateLoop ⟨["en"], "en", []⟩ "greet"
          (Json.obj [("locale", Json.str "fr")])
          (getFallbacks "en" ("fr" :: ["en"]))
      ∧ ∃ rest, getFallbacks "en" ("fr" :: ["en"]) =
          getLocaleAncestry "fr" ++ rest) :=
  ⟨rfl, by decide,
    translate_locale_override ⟨["en"], "en", []⟩ "greet"
      (Json.obj [("locale", Json.str "fr")]) "fr" rfl (by decide)⟩

theorem translateLoop_eq (st : I18NState) (key : String) (params : Json) :
    ∀ l, translateLoop st key params l =
      (l.findSome? (translateStep st key params)).getD
        (translateDefault key params) := by
  intro l
  induction l with
  | nil => rfl
  | cons loc rest ih =>
    simp only [translateLoop, List.findSome?_cons, translateStep]
    cases h : localizedTranslate st key loc params with
    | error e => rfl
    | ok t =>
      by_cases ht : t = ""
      · simp [ht, ih]
      · simp [ht]

theorem trLoop_eq (st : I18NState) (key : String) (params : List String) :
    ∀ l, trLoop st key params l =
      (l.findSome? (trStep st key params)).getD (.ok key) := by
  intro l
  induction l with
  | nil => rfl
  | cons loc rest ih =>
    simp only [trLoop, List.findSome?_cons, trStep]
    cases h : getTranslationData st key loc with
    | none => simpa using ih
    | some d =>
      cases d with
      | str s => rfl
      | obj fields =>
        cases halist : alistGet fields "other" with
        | some v => simp [halist]
        | none =>
          cases fields with
          | nil => simpa [halist] using ih
          | cons p fields' => simp [halist]
      | null => simpa using ih
      | bool b => simpa using ih
      | num n => simpa using ih
      | arr xs => simpa using ih

theorem trPluralLoop_eq (st : I18NState) (key : String) (count : Int)
    (params : List String) :
    ∀ l, trPluralLoop st key count params l =
      (l.findSome? (trPluralStep st key count params)).getD (.ok key) := by
  intro l
  induction l with
  | nil => rfl
  | cons loc rest ih =>
    simp only [trPluralLoop, List.findSome?_cons, trPluralStep]
    cases h : getTranslationData st key loc with
    | none => simpa using ih
    | some d =>
      cases d with
      | str s => rfl
      | obj fields => rfl
      | null => simpa using ih
      | bool b => simpa using ih
      | num n => simpa using ih
      | arr xs => simpa using ih

/-- C1 (amended): for every non-empty key, `translate` returns the first
candidate outcome in the fallback-expanded list under the
"empty-resolved-string counts as missing, first non-empty wins" step, and
falls back to the interpolated string-valued `"default"` parameter (else
the literal key) on exhaustion; `tr` and `trPlural`, however, take the
first candidate whose *lookup* yields a usable node — even when it renders
to the empty string — and return the literal key only when every
candidate's lookup fails or yields an unusable node. -/
theorem resolution_order_characterization :
    ∀ (st : I18NState) (key : String) (params : Json)
      (aparams : List String) (count : Int), key ≠ "" →
      (translate st key params =
        ((getFallbacks st.fallbackLocale (searchLocalesOf st params)).findSome?
            (translateStep st key params)).getD (translateDefault key params))
      ∧ (tr st key aparams =
        ((getFallbacks st.fallbackLocale st.locales).findSome?
            (trStep st key aparams)).getD (.ok key))
      ∧ (trPlural st key count aparams =
        ((getFallbacks st.fallbackLocale st.locales).findSome?
            (trPluralStep st key count aparams)).getD (.ok key)) := by
  intro st key params aparams count hkey
  refine ⟨?_, ?_, ?_⟩
  · rw [translate, if_neg hkey, translateLoop_eq]
  · rw [tr, if_neg hkey, trLoop_eq]
  · rw [trPlural, if_neg hkey, trPluralLoop_eq]

/-- C1 witness: a state where the first candidate (`en-US`) misses and the
second (`en`) resolves, instantiating the three characterizations. -/
theorem resolution_order_characterization_witness :
    ("k" : String) ≠ ""
    ∧ ((translate ⟨["en-US"], "en", [("en", .obj [("k", .str "hi")])]⟩ "k"
          Json.null =
        ((getFallbacks "en"
            (searchLocalesOf
              ⟨["en-US"], "en", [("en", .obj [("k", .str "hi")])]⟩
              Json.null)).findSome?
            (translateStep ⟨["en-US"], "en", [("en", .obj [("k", .str "hi")])]⟩
              "k" Json.null)).getD (translateDefault "k" Json.null))
      ∧ (tr ⟨["en-US"], "en", [("en", .obj [("k", .str "hi")])]⟩ "k" [] =
        ((getFallbacks "en" ["en-US"]).findSome?
            (trStep ⟨["en-US"], "en", [("en", .obj [("k", .str "hi")])]⟩
              "k" [])).getD (.ok "k"))
      ∧ (trPlural ⟨["en-US"], "en", [("en", .obj [("k", .str "hi")])]⟩ "k"
            2 [] =
        ((getFallbacks "en" ["en-US"]).findSome?
            (trPluralStep ⟨["en-US"], "en", [("en", .obj [("k", .str "hi")])]⟩
              "k" 2 [])).getD (.ok "k"))) :=
  ⟨by decide,
    resolution_order_characterization
      ⟨["en-US"], "en", [("en", .obj [("k", .str "hi")])]⟩ "k" Json.null []
      2 (by decide)⟩

/-- C5 counterexample: a plural object whose selected form value is the
number 42 (not a string) makes `get<std::string>()` throw a type error,
which escapes `handlePlural` and `trPlural` — no sentinel string is
returned for this malformed plural node. -/
theorem plural_nonstring_value_cex :
    handlePlural (Json.obj [("one", Json.num 42)]) "en"
        (Json.obj [("count", Json.num 1)]) = .error "type_error"
    ∧ trPlural c5State "item" 1 [] = .error "type_error" :=
  ⟨rfl, rfl⟩

/-- C6 counterexample: with an empty active-locale list the
fallback-expanded candidate list is `["en"]` and the lookup of `k`
succeeds there, yet `keyExists` returns false — its `locales.empty()`
guard fires before the fallback expansion that `translate` would use. -/
theorem keyExists_empty_locales_cex :
    keyExists c6State "k" = false
    ∧ getFallbacks c6State.fallbackLocale c6State.locales = ["en"]
    ∧ (getTranslationData c6State "k" "en").isSome = true :=
  ⟨rfl, rfl, rfl⟩

theorem alistGet_mem {fields : List (String × Json)} {k : String} {v : Json}
    (h : alistGet fields k = some v) : ∃ p ∈ fields, p.2 = v := by
  rw [alistGet] at h
  cases hf : fields.find? (fun p => p.1 == k) with
  | none => rw [hf] at h; simp at h
  | some p =>
    rw [hf] at h
    simp at h
    exact ⟨p, List.mem_of_find?_eq_some hf, h⟩

theorem getStr_of_isStr {v : Json} (h : v.isStr = true) :
    ∃ s, getStr v = .ok s := by
  cases v <;> first | exact ⟨_, rfl⟩ | simp [Json.isStr] at h

/-- C5 (amended): plural handling tries the computed category key, then
`"other"`, then the decimal string of the count, in that order, and
returns the sentinel `"[plural: missing form]"` when none is present; a
non-object plural node yields `"[plural: data not object]"`; and a string
is returned with no error thrown whenever every form value of the plural
object is itself a string — a selected non-string form value instead
raises a type error that propagates (see the counterexample). -/
theorem plural_handling_characterization :
    (∀ (d : Json) (locale : String) (params : Json) (count : Int)
        (aparams : List String), d.isObj = false →
        handlePlural d locale params = .ok "[plural: data not object]"
        ∧ handlePluralWithArray d locale count aparams =
            .ok "[plural: data not object]")
    ∧ (∀ (fields : List (String × Json)) (locale : String) (params : Json),
        (∀ v, alistGet fields (getPluralForm locale (pluralCount params)) =
            some v → handlePlural (.obj fields) locale params = getStr v)
        ∧ (alistGet fields (getPluralForm locale (pluralCount params)) =
              none →
           ∀ v, alistGet fields "other" = some v →
             handlePlural (.obj fields) locale params = getStr v)
        ∧ (alistGet fields (getPluralForm locale (pluralCount params)) =
              none →
           alistGet fields "other" = none →
           ∀ v, alistGet fields (intToString (pluralCount params)) = some v →
             handlePlural (.obj fields) locale params = getStr v)
        ∧ (alistGet fields (getPluralForm locale (pluralCount params)) =
              none →
           alistGet fields "other" = none →
           alistGet fields (intToString (pluralCount params)) = none →
             handlePlural (.obj fields) locale params =
               .ok "[plural: missing form]"))
    ∧ (∀ (fields : List (String × Json)) (locale : String) (params : Json),
        (∀ p ∈ fields, (p.2).isStr = true) →
          ∃ s, handlePlural (.obj fields) locale params = .ok s)
    ∧ (∀ (fields : List (String × Json)) (locale : String) (count : Int)
          (aparams : List String),
        (∀ p ∈ fields, (p.2).isStr = true) →
          ∃ s, handlePluralWithArray (.obj fields) locale count aparams =
            .ok s) := by
  refine ⟨?_, ?_, ?_, ?_⟩
  · intro d locale params count aparams hd
    cases d <;> first | exact ⟨rfl, rfl⟩ | simp [Json.isObj] at hd
  · intro fields locale params
    refine ⟨?_, ?_, ?_, ?_⟩
    · intro v h1
      simp [handlePlural, h1]
    · intro h1 v h2
      simp [handlePlural, h1, h2]
    · intro h1 h2 v h3
      simp [handlePlural, h1, h2, h3]
    · intro h1 h2 h3
      simp [handlePlural, h1, h2, h3]
  · intro fields locale params hstr
    rw [handlePlural]
    cases h1 : alistGet fields (getPluralForm locale (pluralCount params)) with
    | some v =>
      obtain ⟨p, hp, hpv⟩ := alistGet_mem h1
      exact getStr_of_isStr (hpv ▸ hstr p hp)
    | none =>
      cases h2 : alistGet fields "other" with
      | some v =>
        obtain ⟨p, hp, hpv⟩ := alistGet_mem h2
        exact getStr_of_isStr (hpv ▸ hstr p hp)
      | none =>
        cases h3 : alistGet fields (intToString (pluralCount params)) with
        | some v =>
          obtain ⟨p, hp, hpv⟩ := alistGet_mem h3
          exact getStr_of_isStr (hpv ▸ hstr p hp)
        | none => exact ⟨_, rfl⟩
  · intro fields locale count aparams hstr
    rw [handlePluralWithArray]
    cases h1 : alistGet fields (getPluralForm locale count) with
    | some v =>
      obtain ⟨p, hp, hpv⟩ := alistGet_mem h1
      obtain ⟨s, hs⟩ := getStr_of_isStr (hpv ▸ hstr p hp)
      refine ⟨interpolateArray s (intToString count :: aparams), ?_⟩
      simp [hs, Except.map]
    | none =>
      cases h2 : alistGet fields "other" with
      | some v =>
        obtain ⟨p, hp, hpv⟩ := alistGet_mem h2
        obtain ⟨s, hs⟩ := getStr_of_isStr (hpv ▸ hstr p hp)
        refine ⟨interpolateArray s (intToString count :: aparams), ?_⟩
        simp [hs, Except.map]
      | none =>
        cases h3 : alistGet fields (intToString count) with
        | some v =>
          obtain ⟨p, hp, hpv⟩ := alistGet_mem h3
          obtain ⟨s, hs⟩ := getStr_of_isStr (hpv ▸ hstr p hp)
          refine ⟨interpolateArray s (intToString count :: aparams), ?_⟩
          simp [hs, Except.map]
        | none => exact ⟨_, rfl⟩

/-- C5 witness: the priority and sentinel conjuncts instantiated on a
plural object holding only `"other"`. -/
theorem plural_handling_characterization_witness :
    alistGet [(("other" : String), Json.str "xs")]
        (getPluralForm "en" (pluralCount (Json.obj [("count", Json.num 1)])))
        = none
    ∧ alistGet [(("other" : String), Json.str "xs")] "other" =
        some (Json.str "xs")
    ∧ handlePlural (.obj [(("other" : String), Json.str "xs")]) "en"
        (Json.obj [("count", Json.num 1)]) = getStr (Json.str "xs") :=
  ⟨rfl, rfl,
    (plural_handling_characterization.2.1
      [(("other" : String), Json.str "xs")] "en"
      (Json.obj [("count", Json.num 1)])).2.1 rfl (Json.str "xs") rfl⟩

/-- C6 (amended): `keyExists` is true exactly when the active-locale list
is non-empty and some fallback-expanded candidate's lookup succeeds.  In
the embedding it is a total boolean function — no failure escapes — but
with an empty active-locale list it answers false without consulting the
fallback expansion that `translate` would still search (see the
counterexample). -/
theorem keyExists_characterization :
    ∀ (st : I18NState) (key : String),
      keyExists st key = true ↔
        st.locales ≠ [] ∧
          ∃ loc ∈ getFallbacks st.fallbackLocale st.locales,
            (getTranslationData st key loc).isSome = true := by
  intro st key
  by_cases h : st.locales = []
  · simp [keyExists, h]
  · have hne : st.locales.isEmpty = false := by
      simpa [List.isEmpty_iff] using h
    simp [keyExists, hne, h, List.any_eq_true]

/-! ### Lemmas on the interpolation scanners -/

theorem isSome_false_eq_none {α : Type} {o : Option α}
    (h : o.isSome = false) : o = none := by
  cases o with
  | none => rfl
  | some a => simp at h

theorem fieldGo_id (params : List (String × Json)) :
    ∀ (fuel : Nat) (cs : List Char) (b : Bool), hasField cs b = false →
      fieldGo params fuel cs b = cs := by
  intro fuel
  induction fuel with
  | zero => intro cs b _; cases cs <;> rfl
  | succ f ih =>
    intro cs b h
    cases cs with
    | nil => rfl
    | cons c cs' =>
      simp only [hasField] at h
      by_cases hc : c ≠ '%'
      · rw [if_pos hc, Bool.or_eq_false_iff] at h
        rw [fieldGo, if_pos hc, isSome_false_eq_none h.1]
        exact congrArg (List.cons c) (ih cs' false h.2)
      · cases b with
        | true =>
          rw [if_neg hc, if_pos rfl, Bool.or_eq_false_iff] at h
          rw [fieldGo, if_neg hc, if_pos rfl, isSome_false_eq_none h.1]
          exact congrArg (List.cons c) (ih cs' false h.2)
        | false =>
          rw [if_neg hc, if_neg (by simp)] at h
          rw [fieldGo, if_neg hc, if_neg (by simp)]
          exact congrArg (List.cons c) (ih cs' false h)

theorem valueGo_id (params : List (String × Json)) :
    ∀ (fuel : Nat) (cs : List Char) (b : Bool), hasValue cs b = false →
      valueGo params fuel cs b = cs := by
  intro fuel
  induction fuel with
  | zero => intro cs b _; cases cs <;> rfl
  | succ f ih =>
    intro cs b h
    cases cs with
    | nil => rfl
    | cons c cs' =>
      simp only [hasValue] at h
      by_cases hc : c ≠ '%'
      · rw [if_pos hc, Bool.or_eq_false_iff] at h
        rw [valueGo, if_pos hc, isSome_false_eq_none h.1]
        exact congrArg (List.cons c) (ih cs' false h.2)
      · cases b with
        | true =>
          rw [if_neg hc, if_pos rfl, Bool.or_eq_false_iff] at h
          rw [valueGo, if_neg hc, if_pos rfl, isSome_false_eq_none h.1]
          exact congrArg (List.cons c) (ih cs' false h.2)
        | false =>
          rw [if_neg hc, if_neg (by simp)] at h
          rw [valueGo, if_neg hc, if_neg (by simp)]
          exact congrArg (List.cons c) (ih cs' false h)

theorem indexGo_id (params : List String) :
    ∀ (fuel : Nat) (cs : List Char), hasIndex cs = false →
      indexGo params fuel cs = cs := by
  intro fuel
  induction fuel with
  | zero => intro cs _; cases cs <;> rfl
  | succ f ih =>
    intro cs h
    cases cs with
    | nil => rfl
    | cons c cs' =>
      rw [hasIndex, Bool.or_eq_false_iff] at h
      rw [indexGo, isSome_false_eq_none h.1]
      exact congrArg (List.cons c) (ih cs' h.2)

theorem braceGo_id (params : List String) :
    ∀ (fuel : Nat) (cs : List Char) (i : Nat), hasBrace cs = false →
      braceGo params fuel cs i = cs := by
  intro fuel
  induction fuel with
  | zero => intro cs i _; cases cs <;> rfl
  | succ f ih =>
    intro cs i h
    cases cs with
    | nil => rfl
    | cons c cs' =>
      rw [hasBrace, Bool.or_eq_false_iff] at h
      rw [braceGo, isSome_false_eq_none h.1]
      exact congrArg (List.cons c) (ih cs' i h.2)

theorem fieldCore_decomp {cs : List Char} {k : String} {r : List Char}
    (h : fieldCore cs = some (k, r)) :
    cs = '%' :: '{' :: (k.data ++ '}' :: r) := by
  cases cs with
  | nil => simp [fieldCore] at h
  | cons c1 cs1 =>
    cases cs1 with
    | nil => simp [fieldCore] at h
    | cons c2 rest =>
      simp only [fieldCore] at h
      by_cases hpc : c1 = '%' ∧ c2 = '{'
      · rw [if_pos hpc] at h
        by_cases hks : (rest.takeWhile wordDotChar).isEmpty
        · rw [if_pos hks] at h; simp at h
        · rw [if_neg hks] at h
          cases hdw : rest.dropWhile wordDotChar with
          | nil => rw [hdw] at h; simp at h
          | cons d r' =>
            rw [hdw] at h
            replace h : (if d = '}' then
                some (String.mk (rest.takeWhile wordDotChar), r')
                else none) = some (k, r) := h
            by_cases hd : d = '}'
            · rw [if_pos hd] at h
              simp only [Option.some.injEq, Prod.mk.injEq] at h
              obtain ⟨hk, hr⟩ := h
              have hsplit : rest.takeWhile wordDotChar ++
                  rest.dropWhile wordDotChar = rest :=
                List.takeWhile_append_dropWhile wordDotChar rest
              have hrest : rest = k.data ++ '}' :: r := by
                rw [← hsplit, hdw, hd, hr, ← hk]
              rw [hpc.1, hpc.2, hrest]
            · rw [if_neg hd] at h; simp at h
      · rw [if_neg hpc] at h; simp at h

theorem valueCore_decomp {cs : List Char} {k : String} {f : Char}
    {r : List Char} (h : valueCore cs = some (k, f, r)) :
    cs = '%' :: '<' :: (k.data ++ '>' :: '.' :: f :: r) := by
  cases cs with
  | nil => simp [valueCore] at h
  | cons c1 cs1 =>
    cases cs1 with
    | nil => simp [valueCore] at h
    | cons c2 rest =>
      simp only [valueCore] at h
      by_cases hpc : c1 = '%' ∧ c2 = '<'
      · rw [if_pos hpc] at h
        by_cases hks : (rest.takeWhile wordDotChar).isEmpty
        · rw [if_pos hks] at h; simp at h
        · rw [if_neg hks] at h
          cases hdw : rest.dropWhile wordDotChar with
          | nil => rw [hdw] at h; simp at h
          | cons d1 rest1 =>
            cases rest1 with
            | nil => rw [hdw] at h; simp at h
            | cons d2 rest2 =>
              cases rest2 with
              | nil => rw [hdw] at h; simp at h
              | cons f' r' =>
                rw [hdw] at h
                replace h : (if d1 = '>' ∧ d2 = '.' ∧ wordChar f' then
                    some (String.mk (rest.takeWhile wordDotChar), f', r')
                    else none) = some (k, f, r) := h
                by_cases hd : d1 = '>' ∧ d2 = '.' ∧ wordChar f'
                · rw [if_pos hd] at h
                  simp only [Option.some.injEq, Prod.mk.injEq] at h
                  obtain ⟨hk, hf, hr⟩ := h
                  have hsplit : rest.takeWhile wordDotChar ++
                      rest.dropWhile wordDotChar = rest :=
                    List.takeWhile_append_dropWhile wordDotChar rest
                  have hrest : rest = k.data ++ '>' :: '.' :: f :: r := by
                    rw [← hsplit, hdw, hd.1, hd.2.1, hf, hr, ← hk]
                  rw [hpc.1, hpc.2, hrest]
                · rw [if_neg hd] at h; simp at h
      · rw [if_neg hpc] at h; simp at h

/-- Every `%{key}` match whose key is absent from the parameter object
re-emits itself verbatim, so a scan all of whose matched keys are missing
is the identity. -/
theorem fieldGo_missing_keys (params : List (String × Json)) :
    ∀ (fuel : Nat) (cs : List Char) (b : Bool),
      (∀ k ∈ fieldKeys fuel cs b, alistGet params k = none) →
      fieldGo params fuel cs b = cs := by
  intro fuel
  induction fuel with
  | zero => intro cs b _; cases cs <;> rfl
  | succ f ih =>
    intro cs b hmiss
    cases cs with
    | nil => rfl
    | cons c cs' =>
      by_cases hc : c ≠ '%'
      · rw [fieldGo, if_pos hc]
        cases hcore : fieldCore cs' with
        | none =>
          refine congrArg (List.cons c) (ih cs' false fun k hk => hmiss k ?_)
          rw [fieldKeys, if_pos hc, hcore]
          exact hk
        | some kr =>
          obtain ⟨k, r⟩ := kr
          have hkmiss : alistGet params k = none := by
            apply hmiss
            rw [fieldKeys, if_pos hc, hcore]
            exact List.mem_cons_self _ _
          have hrest : ∀ k' ∈ fieldKeys f r true, alistGet params k' = none := by
            intro k' hk'
            apply hmiss
            rw [fieldKeys, if_pos hc, hcore]
            exact List.mem_cons_of_mem _ hk'
          show c :: ((fieldReplacement params k).data ++
            fieldGo params f r true) = c :: cs'
          rw [ih r true hrest]
          rw [fieldCore_decomp hcore]
          simp [fieldReplacement, hkmiss]
      · cases b with
        | true =>
          rw [fieldGo, if_neg hc, if_pos rfl]
          cases hcore : fieldCore (c :: cs') with
          | none =>
            refine congrArg (List.cons c) (ih cs' false fun k hk => hmiss k ?_)
            rw [fieldKeys, if_neg hc, if_pos rfl, hcore]
            exact hk
          | some kr =>
            obtain ⟨k, r⟩ := kr
            have hkmiss : alistGet params k = none := by
              apply hmiss
              rw [fieldKeys, if_neg hc, if_pos rfl, hcore]
              exact List.mem_cons_self _ _
            have hrest : ∀ k' ∈ fieldKeys f r true,
                alistGet params k' = none := by
              intro k' hk'
              apply hmiss
              rw [fieldKeys, if_neg hc, if_pos rfl, hcore]
              exact List.mem_cons_of_mem _ hk'
            show (fieldReplacement params k).data ++ fieldGo params f r true =
              c :: cs'
            rw [ih r true hrest]
            rw [fieldCore_decomp hcore]
            simp [fieldReplacement, hkmiss]
        | false =>
          rw [fieldGo, if_neg hc, if_neg (by simp)]
          refine congrArg (List.cons c) (ih cs' false fun k hk => hmiss k ?_)
          rw [fieldKeys, if_neg hc, if_neg (by simp)]
          exact hk

/-- Every `%<key>.f` match whose key is absent from the parameter object
re-emits itself verbatim, so a scan all of whose matched keys are missing
is the identity. -/
theorem valueGo_missing_keys (params : List (String × Json)) :
    ∀ (fuel : Nat) (cs : List Char) (b : Bool),
      (∀ k ∈ valueKeys fuel cs b, alistGet params k = none) →
      valueGo params fuel cs b = cs := by
  intro fuel
  induction fuel with
  | zero => intro cs b _; cases cs <;> rfl
  | succ f ih =>
    intro cs b hmiss
    cases cs with
    | nil => rfl
    | cons c cs' =>
      by_cases hc : c ≠ '%'
      · rw [valueGo, if_pos hc]
        cases hcore : valueCore cs' with
        | none =>
          refine congrArg (List.cons c) (ih cs' false fun k hk => hmiss k ?_)
          rw [valueKeys, if_pos hc, hcore]
          exact hk
        | some kfr =>
          obtain ⟨k, f', r⟩ := kfr
          have hkmiss : alistGet params k = none := by
            apply hmiss
            rw [valueKeys, if_pos hc, hcore]
            exact List.mem_cons_self _ _
          have hrest : ∀ k' ∈ valueKeys f r true, alistGet params k' = none := by
            intro k' hk'
            apply hmiss
            rw [valueKeys, if_pos hc, hcore]
            exact List.mem_cons_of_mem _ hk'
          show c :: ((valueReplacement params k f').data ++
            valueGo params f r true) = c :: cs'
          rw [ih r true hrest]
          rw [valueCore_decomp hcore]
          simp [valueReplacement, hkmiss]
      · cases b with
        | true =>
          rw [valueGo, if_neg hc, if_pos rfl]
          cases hcore : valueCore (c :: cs') with
          | none =>
            refine congrArg (List.cons c) (ih cs' false fun k hk => hmiss k ?_)
            rw [valueKeys, if_neg hc, if_pos rfl, hcore]
            exact hk
          | some kfr =>
            obtain ⟨k, f', r⟩ := kfr
            have hkmiss : alistGet params k = none := by
              apply hmiss
              rw [valueKeys, if_neg hc, if_pos rfl, hcore]
              exact List.mem_cons_self _ _
            have hrest : ∀ k' ∈ valueKeys f r true,
                alistGet params k' = none := by
              intro k' hk'
              apply hmiss
              rw [valueKeys, if_neg hc, if_pos rfl, hcore]
              exact List.mem_cons_of_mem _ hk'
            show (valueReplacement params k f').data ++
              valueGo params f r true = c :: cs'
            rw [ih r true hrest]
            rw [valueCore_decomp hcore]
            simp [valueReplacement, hkmiss]
        | false =>
          rw [valueGo, if_neg hc, if_neg (by simp)]
          refine congrArg (List.cons c) (ih cs' false fun k hk => hmiss k ?_)
          rw [valueKeys, if_neg hc, if_neg (by simp)]
          exact hk

theorem indexCore_decomp {cs : List Char} {ds r : List Char}
    (h : indexCore cs = some (ds, r)) : cs = '{' :: (ds ++ '}' :: r) := by
  cases cs with
  | nil => simp [indexCore] at h
  | cons c rest =>
    simp only [indexCore] at h
    by_cases hc : c = '{'
    · rw [if_pos hc] at h
      by_cases hds : (rest.takeWhile Char.isDigit).isEmpty
      · rw [if_pos hds] at h; simp at h
      · rw [if_neg hds] at h
        cases hdw : rest.dropWhile Char.isDigit with
        | nil => rw [hdw] at h; simp at h
        | cons d r' =>
          rw [hdw] at h
          replace h : (if d = '}' then
              some (rest.takeWhile Char.isDigit, r') else none) =
              some (ds, r) := h
          by_cases hd : d = '}'
          · rw [if_pos hd] at h
            simp only [Option.some.injEq, Prod.mk.injEq] at h
            obtain ⟨hds', hr⟩ := h
            have hsplit : rest.takeWhile Char.isDigit ++
                rest.dropWhile Char.isDigit = rest :=
              List.takeWhile_append_dropWhile Char.isDigit rest
            have hrest : rest = ds ++ '}' :: r := by
              rw [← hsplit, hdw, hd, hds', hr]
            rw [hc, hrest]
          · rw [if_neg hd] at h; simp at h
    · rw [if_neg hc] at h; simp at h

/-- Every `{N}` match whose index is out of range re-emits itself
verbatim, so a scan all of whose indices are out of range is the
identity. -/
theorem indexGo_out_of_range (params : List String) :
    ∀ (fuel : Nat) (cs : List Char),
      (∀ ds ∈ indexRuns fuel cs, params.length ≤ digitsToNat ds) →
      indexGo params fuel cs = cs := by
  intro fuel
  induction fuel with
  | zero => intro cs _; cases cs <;> rfl
  | succ f ih =>
    intro cs hout
    cases cs with
    | nil => rfl
    | cons c cs' =>
      rw [indexGo]
      cases hcore : indexCore (c :: cs') with
      | none =>
        show c :: indexGo params f cs' = c :: cs'
        refine congrArg (List.cons c) (ih cs' fun ds hds => hout ds ?_)
        rw [indexRuns, hcore]
        exact hds
      | some dr =>
        obtain ⟨ds, r⟩ := dr
        have hlen : params.length ≤ digitsToNat ds := by
          apply hout
          rw [indexRuns, hcore]
          exact List.mem_cons_self _ _
        have hrest : ∀ ds' ∈ indexRuns f r,
            params.length ≤ digitsToNat ds' := by
          intro ds' hds'
          apply hout
          rw [indexRuns, hcore]
          exact List.mem_cons_of_mem _ hds'
        have hnone : params[digitsToNat ds]? = none :=
          List.getElem?_eq_none hlen
        show (match params[digitsToNat ds]? with
          | some v => v.data
          | none => '{' :: ds ++ ['}']) ++ indexGo params f r = c :: cs'
        rw [hnone, ih r hrest, indexCore_decomp hcore]
        simp

theorem braceCore_decomp {cs : List Char} {r : List Char}
    (h : braceCore cs = some r) : cs = '{' :: '}' :: r := by
  cases cs with
  | nil => simp [braceCore] at h
  | cons c1 cs1 =>
    cases cs1 with
    | nil => simp [braceCore] at h
    | cons c2 r' =>
      simp only [braceCore] at h
      by_cases hc : c1 = '{' ∧ c2 = '}'
      · rw [if_pos hc] at h
        simp only [Option.some.injEq] at h
        rw [hc.1, hc.2, h]
      · rw [if_neg hc] at h; simp at h

/-- Once the positional cursor has exhausted the parameter list, every
`{}` match re-emits itself verbatim, so the scan is the identity. -/
theorem braceGo_exhausted (params : List String) :
    ∀ (fuel : Nat) (cs : List Char) (i : Nat), params.length ≤ i →
      braceGo params fuel cs i = cs := by
  intro fuel
  induction fuel with
  | zero => intro cs i _; cases cs <;> rfl
  | succ f ih =>
    intro cs i hi
    cases cs with
    | nil => rfl
    | cons c cs' =>
      rw [braceGo]
      cases hcore : braceCore (c :: cs') with
      | none =>
        show c :: braceGo params f cs' i = c :: cs'
        exact congrArg (List.cons c) (ih cs' i hi)
      | some r =>
        have hnone : params[i]? = none := List.getElem?_eq_none hi
        show (match params[i]? with
          | some v => v.data ++ braceGo params f r (i + 1)
          | none => '{' :: '}' :: braceGo params f r i) = c :: cs'
        rw [hnone, ih r i hi, braceCore_decomp hcore]

/-- C7: interpolation leaves unrecognized input unchanged.  A template all
of whose matched placeholder keys are absent from the parameter tree — the
tree itself arbitrary — passes through `interpolate` verbatim (each
missing-key match re-emits itself); a string in which a pass recognizes no
placeholder is returned unchanged by the named-field pass, the
formatted-field pass, and both halves of the positional pass, hence by
`interpolateArray`, for every parameter list and cursor position; and the
positional scans re-emit every out-of-range `{N}` match and, once the
cursor exhausts the parameters, every `{}` match. -/
theorem interpolation_unchanged_on_nonmatching :
    (∀ (s : String) (params : Json),
        (∀ k ∈ fieldKeys s.data.length s.data true, jGet params k = none) →
        (∀ k ∈ valueKeys s.data.length s.data true, jGet params k = none) →
        interpolate s params = s)
    ∧ (∀ (params : List (String × Json)) (cs : List Char),
        hasField cs true = false → fieldPass params cs = cs)
    ∧ (∀ (params : List (String × Json)) (cs : List Char),
        hasValue cs true = false → valuePass params cs = cs)
    ∧ (∀ (params : List String) (cs : List Char),
        hasIndex cs = false → indexPass params cs = cs)
    ∧ (∀ (params : List String) (cs : List Char) (i : Nat),
        hasBrace cs = false → braceGo params cs.length cs i = cs)
    ∧ (∀ (s : String) (params : List String), hasIndex s.data = false →
        hasBrace s.data = false → interpolateArray s params = s)
    ∧ (∀ (params : List String) (fuel : Nat) (cs : List Char),
        (∀ ds ∈ indexRuns fuel cs, params.length ≤ digitsToNat ds) →
        indexGo params fuel cs = cs)
    ∧ (∀ (params : List String) (fuel : Nat) (cs : List Char) (i : Nat),
        params.length ≤ i → braceGo params fuel cs i = cs) := by
  refine ⟨?_, ?_, ?_, ?_, ?_, ?_, ?_, ?_⟩
  · intro s params hfk hvk
    cases params with
    | obj fields =>
      rw [interpolate]
      split_ifs with hs
      · rfl
      · have h1 : fieldPass fields s.data = s.data :=
          fieldGo_missing_keys fields s.data.length s.data true
            (fun k hk => hfk k hk)
        have h2 : valuePass fields s.data = s.data :=
          valueGo_missing_keys fields s.data.length s.data true
            (fun k hk => hvk k hk)
        rw [h1]
        show String.mk (valuePass fields s.data) = s
        rw [h2]
    | null => rfl
    | bool b => rfl
    | num n => rfl
    | str s' => rfl
    | arr xs => rfl
  · exact fun params cs h => fieldGo_id params cs.length cs true h
  · exact fun params cs h => valueGo_id params cs.length cs true h
  · exact fun params cs h => indexGo_id params cs.length cs h
  · exact fun params cs i h => braceGo_id params cs.length cs i h
  · intro s params hidx hbr
    rw [interpolateArray]
    split_ifs with hp
    · rfl
    · rw [indexPass, indexGo_id params s.data.length s.data hidx, bracePass,
        braceGo_id params s.data.length s.data 0 hbr]
  · exact fun params fuel cs h => indexGo_out_of_range params fuel cs h
  · exact fun params fuel cs i h => braceGo_exhausted params fuel cs i h

/-- C7 witness: a missing-key template under a non-empty parameter tree,
the per-pass identities on non-matching inputs, an out-of-range `{N}`
and an exhausted `{}` cursor, all at concrete inputs. -/
theorem interpolation_unchanged_witness :
    interpolate "x %\x7bb\x7d y" (Json.obj [("a", Json.num 1)]) =
        "x %\x7bb\x7d y"
    ∧ hasField "a%b".data true = false
    ∧ fieldPass [("x", Json.str "y")] "a%b".data = "a%b".data
    ∧ hasIndex "no braces".data = false
    ∧ hasBrace "no braces".data = false
    ∧ interpolateArray "no braces" ["p"] = "no braces"
    ∧ indexGo ["p"] "\x7b7\x7d".data.length "\x7b7\x7d".data =
        "\x7b7\x7d".data
    ∧ braceGo ["p"] "\x7b\x7d".data.length "\x7b\x7d".data 1 =
        "\x7b\x7d".data :=
  ⟨interpolation_unchanged_on_nonmatching.1 "x %\x7bb\x7d y"
      (Json.obj [("a", Json.num 1)])
      (fun k hk => by
        replace hk : k ∈ ["b"] := hk
        rw [List.mem_singleton.mp hk]
        rfl)
      (fun k hk => by
        replace hk : k ∈ ([] : List String) := hk
        simp at hk),
   by decide,
   interpolation_unchanged_on_nonmatching.2.1 [("x", Json.str "y")]
     "a%b".data (by decide),
   by decide, by decide,
   interpolation_unchanged_on_nonmatching.2.2.2.2.2.1 "no braces" ["p"]
     (by decide) (by decide),
   interpolation_unchanged_on_nonmatching.2.2.2.2.2.2.1 ["p"]
     "\x7b7\x7d".data.length "\x7b7\x7d".data
     (fun ds hds => by
       replace hds : ds ∈ [['7']] := hds
       rw [List.mem_singleton.mp hds]
       decide),
   interpolation_unchanged_on_nonmatching.2.2.2.2.2.2.2 ["p"]
     "\x7b\x7d".data.length "\x7b\x7d".data 1 (by decide)⟩

/-! ### Lemmas on the number formatter -/

theorem digitChar_isDigit (n : Nat) : (digitChar n).isDigit = true := by
  unfold digitChar
  split <;> decide

theorem natToStringAux_digits :
    ∀ (fuel n : Nat) (acc : List Char), (∀ c ∈ acc, c.isDigit = true) →
      ∀ c ∈ natToStringAux fuel n acc, c.isDigit = true := by
  intro fuel
  induction fuel with
  | zero => intro n acc hacc c hc; exact hacc c hc
  | succ f ih =>
    intro n acc hacc c hc
    rw [natToStringAux] at hc
    split_ifs at hc with hn
    · rcases List.mem_cons.mp hc with h | h
      · rw [h]; exact digitChar_isDigit n
      · exact hacc c h
    · refine ih (n / 10) (digitChar (n % 10) :: acc) ?_ c hc
      intro c' hc'
      rcases List.mem_cons.mp hc' with h | h
      · rw [h]; exact digitChar_isDigit (n % 10)
      · exact hacc c' h

theorem natToString_digits (n : Nat) :
    ∀ c ∈ (natToString n).data, c.isDigit = true := by
  intro c hc
  exact natToStringAux_digits (n + 1) n [] (by simp) c hc

theorem groupRevGo_mem (sepR : List Char) :
    ∀ (fuel : Nat) (l : List Char) (c : Char),
      c ∈ groupRevGo sepR fuel l → c ∈ l ∨ c ∈ sepR := by
  intro fuel
  induction fuel with
  | zero => intro l c hc; exact Or.inl hc
  | succ f ih =>
    intro l c hc
    rw [groupRevGo] at hc
    split_ifs at hc with hl
    · exact Or.inl hc
    · rcases List.mem_append.mp hc with h | h
      · rcases List.mem_append.mp h with h' | h'
        · exact Or.inl (List.mem_of_mem_take h')
        · exact Or.inr h'
      · rcases ih (l.drop 3) c h with h' | h'
        · exact Or.inl (List.mem_of_mem_drop h')
        · exact Or.inr h'

/-- Grouping a minus-free digit string introduces only separator
characters. -/
theorem separateThousand_digits_mem (s : String) (sep : String) (c : Char)
    (hall : ∀ c' ∈ s.data, c'.isDigit = true)
    (hc : c ∈ (separateThousand s sep).data) :
    c ∈ s.data ∨ c ∈ sep.data := by
  rw [separateThousand] at hc
  have htake : s.data.takeWhile (fun c' => c' ≠ '.') = s.data := by
    apply List.takeWhile_eq_self_iff.mpr
    intro c' hc'
    simp only [decide_eq_true_eq]
    intro hdot
    have := hall c' hc'
    rw [hdot] at this
    simp at this
  have hdrop : s.data.dropWhile (fun c' => c' ≠ '.') = [] := by
    have hsplit := List.takeWhile_append_dropWhile
      (fun c' => decide (c' ≠ '.')) s.data
    rw [htake] at hsplit
    simpa using hsplit
  have hneg' : ¬(s.data.head? = some '-') := by
    intro hh
    cases hs : s.data with
    | nil => rw [hs] at hh; simp at hh
    | cons a l =>
      rw [hs] at hh
      simp only [List.head?_cons, Option.some.injEq] at hh
      have := hall a (by rw [hs]; exact List.mem_cons_self a l)
      rw [hh] at this
      simp at this
  simp only [htake, hdrop, if_neg hneg', List.nil_append, List.append_nil] at hc
  replace hc :
      c ∈ (groupRevGo sep.data.reverse s.data.length s.data.reverse).reverse :=
    hc
  rw [List.mem_reverse] at hc
  rcases groupRevGo_mem sep.data.reverse _ _ c hc with h | h
  · exact Or.inl (List.mem_reverse.mp h)
  · exact Or.inr (List.mem_reverse.mp h)

theorem string_append_assoc (a b c : String) :
    (a ++ b) ++ c = a ++ (b ++ c) := by
  cases a with
  | mk as =>
    cases b with
    | mk bs =>
      cases c with
      | mk cs => exact congrArg String.mk (List.append_assoc as bs cs)

theorem cppRound_nonneg_eq (q : ℚ) (hq : 0 ≤ q) :
    cppRound q = ⌊q + 1 / 2⌋ := by
  rw [cppRound, if_neg (not_lt.mpr hq)]

theorem cppRound_nonneg (q : ℚ) (hq : 0 ≤ q) : 0 ≤ cppRound q := by
  rw [cppRound_nonneg_eq q hq]
  exact Int.le_floor.mpr (by push_cast; linarith)

theorem floor_half_rat : ⌊(1 / 2 : ℚ)⌋ = 0 := by
  rw [Int.floor_eq_iff]
  constructor <;> norm_num

theorem cppRound_intCast {r : Int} (hr : 0 ≤ r) : cppRound (r : ℚ) = r := by
  rw [cppRound_nonneg_eq _ (by exact_mod_cast hr), Int.floor_int_add,
    floor_half_rat, add_zero]

theorem cppTrunc_nonneg_eq (q : ℚ) (hq : 0 ≤ q) : cppTrunc q = ⌊q⌋ := by
  rw [cppTrunc, if_neg (not_lt.mpr hq)]

theorem floor_intCast_div_pow (m : Int) (d : Nat) :
    ⌊(m : ℚ) / (10 : ℚ) ^ d⌋ = m / 10 ^ d := by
  have h10 : ((10 : ℚ) ^ d) = ((10 ^ d : ℕ) : ℚ) := by push_cast; ring
  rw [h10, Rat.floor_intCast_div_natCast]
  congr 1
  push_cast
  ring

theorem zeroPad_eq (d : Nat) (s : String) :
    (if s.length < d then String.mk (List.replicate (d - s.length) '0')
      else "") ++ s = zeroPad d s := by
  rw [zeroPad]
  split_ifs with h
  · rfl
  · rw [Nat.sub_eq_zero_of_le (le_of_not_lt h)]
    rfl

/-- The general shape of `formatNumberWithConfig`: half-away-from-zero
rounding of the scaled absolute value, triple grouping, zero padding,
sign prefix. -/
theorem formatNumberWithConfig_eq (x : ℚ) (dec thou pos neg : String)
    (d : Nat) (hd : 0 < d) :
    formatNumberWithConfig x ⟨dec, thou, d, pos, neg⟩ =
      (if x < 0 then neg else pos) ++
        ((separateThousand (intToString (cppRound (|x| * 10 ^ d) / 10 ^ d))
            thou ++ dec) ++
          zeroPad d (intToString (cppRound (|x| * 10 ^ d) % 10 ^ d))) := by
  have hq : (0 : ℚ) ≤ |x| * 10 ^ d := by positivity
  have hm0 : 0 ≤ cppRound (|x| * 10 ^ d) := cppRound_nonneg _ hq
  have hp0 : (0 : ℚ) < 10 ^ d := by positivity
  have hI : cppTrunc ((cppRound (|x| * 10 ^ d) : ℚ) / 10 ^ d) =
      cppRound (|x| * 10 ^ d) / 10 ^ d := by
    rw [cppTrunc_nonneg_eq _
      (div_nonneg (by exact_mod_cast hm0) (le_of_lt hp0))]
    exact floor_intCast_div_pow _ d
  have hF : (((cppRound (|x| * 10 ^ d) : ℚ)) / 10 ^ d -
        ((cppRound (|x| * 10 ^ d) / 10 ^ d : ℤ) : ℚ)) * 10 ^ d =
      ((cppRound (|x| * 10 ^ d) % 10 ^ d : ℤ) : ℚ) := by
    rw [sub_mul, div_mul_cancel₀ _ (ne_of_gt hp0), Int.emod_def]
    push_cast
    ring
  have hS : cppRound ((((cppRound (|x| * 10 ^ d) : ℚ)) / 10 ^ d -
        ((cppRound (|x| * 10 ^ d) / 10 ^ d : ℤ) : ℚ)) * 10 ^ d) =
      cppRound (|x| * 10 ^ d) % 10 ^ d := by
    rw [hF]
    exact cppRound_intCast
      (Int.emod_nonneg _ (ne_of_gt (by positivity : (0:ℤ) < 10 ^ d)))
  simp only [formatNumberWithConfig, hI, if_pos hd, hS]
  rw [string_append_assoc _ _ (intToString (cppRound (|x| * 10 ^ d) % 10 ^ d)),
    zeroPad_eq]
  split_ifs with h1 h2
  · rfl
  · rfl
  · have hpos : pos = "" := by simpa using h2
    rw [hpos]
    rfl

/-- C8: number formatting rounds `|x|` half-away-from-zero at
`fract_digits` decimal places (via the scaled integer
`cppRound (|x|·10^d)`), groups the integer digits into triples from the
right with the thousand separator, zero-pads the fraction to exactly
`fract_digits` digits after the decimal symbol, and prepends the negative
symbol for negative input, else the positive symbol; the default
configuration gives `"1 234.50"` and `"-5.00"` on the spec's inputs; and
every integer value formats with exactly one decimal separator and the
trailing digits `00`. -/
theorem formatNumber_correct :
    (∀ (x : ℚ) (dec thou pos neg : String) (d : Nat), 0 < d →
      formatNumberWithConfig x ⟨dec, thou, d, pos, neg⟩ =
        (if x < 0 then neg else pos) ++
          ((separateThousand (intToString (cppRound (|x| * 10 ^ d) / 10 ^ d))
              thou ++ dec) ++
            zeroPad d (intToString (cppRound (|x| * 10 ^ d) % 10 ^ d))))
    ∧ formatNumber (1234.5 : ℚ) = "1 234.50"
    ∧ formatNumber (-5 : ℚ) = "-5.00"
    ∧ (∀ n : Int, (formatNumber (n : ℚ)).data.count '.' = 1
        ∧ ∃ body, formatNumber (n : ℚ) = body ++ ".00") := by
  have hgen := formatNumberWithConfig_eq
  have hdefault : ∀ x : ℚ, formatNumber x =
      (if x < 0 then "-" else "") ++
        ((separateThousand (intToString (cppRound (|x| * 10 ^ 2) / 10 ^ 2))
            " " ++ ".") ++
          zeroPad 2 (intToString (cppRound (|x| * 10 ^ 2) % 10 ^ 2))) := by
    intro x
    have h2 := hgen x "." " " "" "-" 2 (by norm_num)
    calc formatNumber x = formatNumberWithConfig x ⟨".", " ", 2, "", "-"⟩ :=
          rfl
      _ = _ := by rw [h2]
  refine ⟨hgen, ?_, ?_, ?_⟩
  · rw [hdefault]
    have habs : |(1234.5 : ℚ)| * 10 ^ 2 = ((123450 : ℤ) : ℚ) := by
      rw [abs_of_nonneg (by norm_num)]
      norm_num
    rw [habs, cppRound_intCast (by norm_num), if_neg (by norm_num)]
    decide
  · rw [hdefault]
    have habs : |(-5 : ℚ)| * 10 ^ 2 = ((500 : ℤ) : ℚ) := by
      rw [abs_of_nonpos (by norm_num)]
      norm_num
    rw [habs, cppRound_intCast (by norm_num), if_pos (by norm_num)]
    decide
  · intro n
    have habs : |(n : ℚ)| * 10 ^ 2 = ((|n| * 100 : ℤ) : ℚ) := by
      rw [← Int.cast_abs]
      push_cast
      ring
    have hm : cppRound (|(n : ℚ)| * 10 ^ 2) = |n| * 100 := by
      rw [habs]
      exact cppRound_intCast (by positivity)
    have h100 : ((10 : ℤ) ^ 2) = 100 := by norm_num
    have hdiv : (|n| * 100 : ℤ) / 10 ^ 2 = |n| := by
      rw [h100]
      exact Int.mul_ediv_cancel _ (by norm_num)
    have hmod : (|n| * 100 : ℤ) % 10 ^ 2 = 0 := by
      rw [h100]
      generalize |n| = k
      omega
    have hshape : formatNumber (n : ℚ) =
        (if (n : ℚ) < 0 then "-" else "") ++
          ((separateThousand (intToString |n|) " " ++ ".") ++ "00") := by
      rw [hdefault, hm, hdiv, hmod]
      rfl
    have hdig : ∀ c ∈ (intToString |n|).data, c.isDigit = true := by
      rw [intToString, if_neg (not_lt.mpr (abs_nonneg n))]
      exact natToString_digits _
    have hsep0 : (separateThousand (intToString |n|) " ").data.count '.' = 0 := by
      rw [List.count_eq_zero]
      intro hmem
      rcases separateThousand_digits_mem _ _ _ hdig hmem with h | h
      · exact absurd (hdig _ h) (by decide)
      · simp at h
    constructor
    · have hd2 : (formatNumber (n : ℚ)).data =
          (if (n : ℚ) < 0 then "-" else "").data ++
            ((separateThousand (intToString |n|) " ").data ++
              ['.', '0', '0']) := by
        rw [hshape]
        show (if (n : ℚ) < 0 then "-" else "").data ++
            (((separateThousand (intToString |n|) " ").data ++ ['.']) ++
              ['0', '0']) = _
        rw [List.append_assoc]
        rfl
      rw [hd2, List.count_append, List.count_append, hsep0]
      split_ifs <;> decide
    · refine ⟨(if (n : ℚ) < 0 then "-" else "") ++
        separateThousand (intToString |n|) " ", ?_⟩
      rw [hshape,
        string_append_assoc (separateThousand (intToString |n|) " ") "." "00",
        ← string_append_assoc (if (n : ℚ) < 0 then "-" else "")
          (separateThousand (intToString |n|) " ") ("." ++ "00")]
      rfl

/-- C8 witness: the general formatting shape instantiated at `-5` under
the default configuration. -/
theorem formatNumber_correct_witness :
    (0 : Nat) < 2
    ∧ formatNumberWithConfig (-5 : ℚ) ⟨".", " ", 2, "", "-"⟩ =
        (if (-5 : ℚ) < 0 then "-" else "") ++
          ((separateThousand
              (intToString (cppRound (|(-5 : ℚ)| * 10 ^ 2) / 10 ^ 2)) " "
              ++ ".") ++
            zeroPad 2 (intToString (cppRound (|(-5 : ℚ)| * 10 ^ 2) % 10 ^ 2))) :=
  ⟨by decide, formatNumber_correct.1 (-5 : ℚ) "." " " "" "-" 2 (by decide)⟩

end I18ncpp
